import Mathlib

/-!
# String escape analysis (turboshaft)

A shallow embedding of `StringEscapeAnalyzer` from
`src/compiler/turboshaft/string-escape-analysis-reducer.cc`, followed by the
properties of the analysis: traversal order, monotonicity of the flag store,
the classification rules, and the loop fix-up pass.

Operation indices are natural numbers.  The worklist `to_mark` is a list whose
head is the back of the vector, so `push_back` is `cons` and `back`/`pop_back`
take the head.
-/

namespace Turboshaft

/-- The operation kinds the analysis distinguishes.  Every other opcode of the
IR falls into `kOther`, which carries a tag so that different ordinary kinds
(phi, call, return, ...) can be told apart. -/
inductive Opcode where
  | kFrameState
  | kStringConcat
  | kStringLength
  | kOther (tag : Nat)
  deriving DecidableEq, Repr

/-- An operation: its kind and the indices of the operations it consumes. -/
structure Operation where
  opcode : Opcode
  inputs : List Nat
  deriving DecidableEq, Repr

/-- Modelled from the spec: the graph class is external to the analysis.  It is
a dense table of operations addressed by index together with the blocks, each
an ordered list of operation indices. -/
structure Graph where
  operations : List Operation
  blocks : List (List Nat)
  deriving DecidableEq, Repr

namespace Graph

/-- Number of blocks, `graph_.block_count()`. -/
def block_count (g : Graph) : Nat := g.blocks.length

/-- The operation indices of the block with the given index, in block order:
`graph_.OperationIndices(graph_.Get(block_index))`. -/
def OperationIndices (g : Graph) (block_index : Nat) : List Nat :=
  g.blocks.getD block_index []

/-- Lookup of an operation, `graph_.Get(index)`.  An index outside the table
is a precondition violation of the graph; the model answers with an ordinary
operation without inputs there. -/
def Get (g : Graph) (index : Nat) : Operation :=
  g.operations.getD index ⟨Opcode.kOther 0, []⟩

/-- All listed operation indices in block order: `ops(b_0) ++ ops(b_1) ++ ...`. -/
def blockOrder (g : Graph) : List Nat := g.blocks.flatten

/-- Every input of every operation and every index listed in a block refers to
an operation of the table. -/
def WellFormed (g : Graph) : Prop :=
  (∀ op ∈ g.operations, ∀ i ∈ op.inputs, i < g.operations.length) ∧
  (∀ b ∈ g.blocks, ∀ i ∈ b, i < g.operations.length)

instance (g : Graph) : Decidable g.WellFormed := by
  unfold WellFormed; infer_instance

/-- Every operation of the table is listed in some block. -/
def AllListed (g : Graph) : Prop :=
  ∀ i < g.operations.length, i ∈ g.blockOrder

instance (g : Graph) : Decidable g.AllListed := by
  unfold AllListed; infer_instance

end Graph

/-- Modelled from the spec: the escape flag store `escaping_operations_`, a
mapping from operation index to a boolean that defaults to false. -/
abbrev Flags := Nat → Bool

/-- The assignment `escaping_operations_[index] = true`. -/
def Flags.mark (F : Flags) (index : Nat) : Flags :=
  fun j => if j = index then true else F j

/-- The mutable members of the analyzer. -/
structure StringEscapeAnalyzer where
  escaping_operations_ : Flags
  maybe_non_escaping_string_concats_ : List Nat

namespace StringEscapeAnalyzer

/-- A fresh analyzer: all flags false, empty deferred list. -/
def fresh : StringEscapeAnalyzer := ⟨fun _ => false, []⟩

/-- Modelled from the spec: the query `IsEscaping(index)` declared in the
header, a read of the flag store. -/
def IsEscaping (st : StringEscapeAnalyzer) (index : Nat) : Bool :=
  st.escaping_operations_ index

/-- The loop of `MarkAllInputsAsEscaping`: every input is flagged. -/
def MarkAllInputsAsEscaping (st : StringEscapeAnalyzer) (op : Operation) :
    StringEscapeAnalyzer :=
  op.inputs.foldl
    (fun s input => { s with escaping_operations_ := s.escaping_operations_.mark input }) st

/-- The body of the loop of `ProcessBlock`: the switch on the opcode of the
operation at `index`. -/
def ProcessOp (g : Graph) (st : StringEscapeAnalyzer) (index : Nat) :
    StringEscapeAnalyzer :=
  match (g.Get index).opcode with
  | Opcode.kFrameState => st
  | Opcode.kStringConcat =>
    if st.IsEscaping index then
      st.MarkAllInputsAsEscaping (g.Get index)
    else
      { st with maybe_non_escaping_string_concats_ :=
                  st.maybe_non_escaping_string_concats_ ++ [index] }
  | Opcode.kStringLength => st
  | Opcode.kOther _ => st.MarkAllInputsAsEscaping (g.Get index)

/-- The iteration of `ProcessBlock` over `base::Reversed(OperationIndices(block))`
with the action on each index left open. -/
def ProcessBlockWith {σ : Type} (visit : σ → Nat → σ) (s : σ) (block : List Nat) : σ :=
  block.reverse.foldl visit s

/-- The block loop of `Run`, `for (processed = block_count; processed > 0; --processed)`,
with the action on each index left open; the block handled in an iteration is
`processed - 1`. -/
def RunBlocksWith {σ : Type} (visit : σ → Nat → σ) (g : Graph) : Nat → σ → σ
  | 0, s => s
  | processed + 1, s =>
    RunBlocksWith visit g processed (ProcessBlockWith visit s (g.OperationIndices processed))

/-- The source's `ProcessBlock`. -/
def ProcessBlock (g : Graph) (st : StringEscapeAnalyzer) (block : List Nat) :
    StringEscapeAnalyzer :=
  ProcessBlockWith (ProcessOp g) st block

/-- The backward sweep of `Run` (everything before `ReprocessStringConcats`),
from an arbitrary analyzer state. -/
def SweepFrom (g : Graph) (st : StringEscapeAnalyzer) : StringEscapeAnalyzer :=
  RunBlocksWith (ProcessOp g) g g.block_count st

/-- The backward sweep from a fresh analyzer. -/
def Sweep (g : Graph) : StringEscapeAnalyzer := SweepFrom g fresh

/-- The sequence of indices the sweep hands to the classifier, in the order
of the calls. -/
def Dispatched (g : Graph) : List Nat :=
  RunBlocksWith (fun trace index => trace ++ [index]) g g.block_count []

/-- The body of the `for` loop inside the worklist loop: an input that is a
StringConcat and not yet flagged is flagged and pushed. -/
def MarkInput (g : Graph) (acc : Flags × List Nat) (input_index : Nat) :
    Flags × List Nat :=
  if (g.Get input_index).opcode = Opcode.kStringConcat ∧ acc.1 input_index = false then
    (acc.1.mark input_index, input_index :: acc.2)
  else acc

/-- One iteration of the `while` loop: `curr` has been popped, `rest` is what
remains of `to_mark`. -/
def MarkStep (g : Graph) (F : Flags) (curr : Nat) (rest : List Nat) : Flags × List Nat :=
  (g.Get curr).inputs.foldl (MarkInput g) (F, rest)

/-- The loop `while (!to_mark.empty())`, with a bound on the number of
iterations; `none` when the bound is reached with work left. -/
def MarkLoop (g : Graph) : Nat → List Nat → Flags → Option Flags
  | _, [], F => some F
  | 0, _ :: _, _ => none
  | fuel + 1, curr :: rest, F =>
    MarkLoop g fuel (MarkStep g F curr rest).2 (MarkStep g F curr rest).1

/-- The source's `RecursivelyMarkAllStringConcatInputsAsEscaping`: the worklist
is seeded with the candidate.  The loop is run with one iteration more than
there are operations in the table. -/
def RecursivelyMarkAllStringConcatInputsAsEscaping (g : Graph) (F : Flags) (concat : Nat) :
    Option Flags :=
  MarkLoop g (g.operations.length + 1) [concat] F

/-- The body of the loop of `ReprocessStringConcats` for one candidate. -/
def ReprocessCandidate (g : Graph) (F : Flags) (index : Nat) : Option Flags :=
  if F index then RecursivelyMarkAllStringConcatInputsAsEscaping g F index else some F

/-- The loop of `ReprocessStringConcats` over the candidates still to handle. -/
def ReprocessFrom (g : Graph) : List Nat → Flags → Option Flags
  | [], F => some F
  | index :: rest, F => (ReprocessCandidate g F index).bind (ReprocessFrom g rest)

/-- The source's `ReprocessStringConcats`. -/
def ReprocessStringConcats (g : Graph) (st : StringEscapeAnalyzer) :
    Option StringEscapeAnalyzer :=
  (ReprocessFrom g st.maybe_non_escaping_string_concats_ st.escaping_operations_).map
    (fun F => { st with escaping_operations_ := F })

/-- The source's `Run`, on a fresh analyzer. -/
def Run (g : Graph) : Option StringEscapeAnalyzer :=
  ReprocessStringConcats g (Sweep g)

/-- The answer of `IsEscaping(index)` once `Run` has returned. -/
def RunIsEscaping (g : Graph) (index : Nat) : Option Bool :=
  (Run g).map (fun st => st.IsEscaping index)

end StringEscapeAnalyzer

open StringEscapeAnalyzer

/-- Pointwise order on flag stores: every flag set in `F` is set in `F'`. -/
def FlagsLe (F F' : Flags) : Prop := ∀ i, F i = true → F' i = true

/-- The StringConcat operations of the table whose flag is still false: the
operations the worklist loop can still push. -/
def pending (g : Graph) (F : Flags) : Finset Nat :=
  (Finset.range g.operations.length).filter
    (fun i => (g.Get i).opcode = Opcode.kStringConcat ∧ F i = false)

/-- An ordinary consumer: its kind is none of FrameState, StringConcat and
StringLength, so it is handled by the default case of the switch. -/
def IsDefaultKind (g : Graph) (u : Nat) : Prop :=
  (g.Get u).opcode ≠ Opcode.kFrameState ∧ (g.Get u).opcode ≠ Opcode.kStringConcat ∧
    (g.Get u).opcode ≠ Opcode.kStringLength

instance (g : Graph) (u : Nat) : Decidable (IsDefaultKind g u) := by
  unfold IsDefaultKind; infer_instance

/-- A graph with a loop-carried use: operation 3 is a phi-like merge that
consumes the StringConcat 4 defined after it, and 5 consumes the merge.
Operations 0, 1 and 2 are the length and the operands of the StringConcat. -/
def loopGraph : Graph :=
  { operations :=
      [⟨Opcode.kOther 1, []⟩, ⟨Opcode.kOther 1, []⟩, ⟨Opcode.kOther 1, []⟩,
       ⟨Opcode.kOther 2, [4]⟩, ⟨Opcode.kStringConcat, [0, 1, 2]⟩, ⟨Opcode.kOther 3, [3]⟩],
    blocks := [[0, 1, 2], [3, 4], [5]] }

/-- The reasons the classifier rules give for a flag: the operation is an
input of an ordinary consumer, or an input of a StringConcat that has a reason
itself. -/
inductive Justified (g : Graph) : Nat → Prop
  | direct (u i : Nat) : IsDefaultKind g u → i ∈ (g.Get u).inputs → Justified g i
  | via (c i : Nat) : (g.Get c).opcode = Opcode.kStringConcat → Justified g c →
      i ∈ (g.Get c).inputs → Justified g i

/-- Two StringConcats nested in each other whose result is only measured:
3 is the inner one, 4 the outer one, 5 a StringLength of the outer one. -/
def lengthGraph : Graph :=
  { operations :=
      [⟨Opcode.kOther 1, []⟩, ⟨Opcode.kOther 1, []⟩, ⟨Opcode.kOther 1, []⟩,
       ⟨Opcode.kStringConcat, [0, 1, 2]⟩, ⟨Opcode.kStringConcat, [0, 3, 2]⟩,
       ⟨Opcode.kStringLength, [4]⟩, ⟨Opcode.kOther 3, [5]⟩],
    blocks := [[0, 1, 2, 3], [4, 5, 6]] }

/-- Every StringConcat among the inputs of `o` is flagged in `F`. -/
def Closed (g : Graph) (F : Flags) (o : Nat) : Prop :=
  ∀ i ∈ (g.Get o).inputs, (g.Get i).opcode = Opcode.kStringConcat → F i = true

/-- The sweep visits `c` at a moment at which the flag of `c` is already set. -/
def FlaggedWhenVisited (g : Graph) (c : Nat) : Prop :=
  ∃ xs ys, Dispatched g = xs ++ c :: ys ∧ (xs.foldl (ProcessOp g) fresh).IsEscaping c = true

/-- A chain of StringConcats under a loop-carried use: 4 is Concat(1, 2),
5 is Concat(4, 1), 6 is Concat(5, 2), each with the length 0 as first input,
and the phi-like merge 3, defined before them, consumes 6. -/
def chainGraph : Graph :=
  { operations :=
      [⟨Opcode.kOther 1, []⟩, ⟨Opcode.kOther 1, []⟩, ⟨Opcode.kOther 1, []⟩,
       ⟨Opcode.kOther 2, [6]⟩, ⟨Opcode.kStringConcat, [0, 1, 2]⟩,
       ⟨Opcode.kStringConcat, [0, 4, 1]⟩, ⟨Opcode.kStringConcat, [0, 5, 2]⟩],
    blocks := [[0, 1, 2], [3, 4, 5, 6]] }

/-- The chain of `chainGraph` without the loop: the consumer 7 of the outermost
StringConcat 6 is defined after it. -/
def straightChainGraph : Graph :=
  { operations :=
      [⟨Opcode.kOther 1, []⟩, ⟨Opcode.kOther 1, []⟩, ⟨Opcode.kOther 1, []⟩,
       ⟨Opcode.kOther 1, []⟩, ⟨Opcode.kStringConcat, [0, 1, 2]⟩,
       ⟨Opcode.kStringConcat, [0, 4, 1]⟩, ⟨Opcode.kStringConcat, [0, 5, 2]⟩,
       ⟨Opcode.kOther 3, [6]⟩],
    blocks := [[0, 1, 2, 3], [4, 5, 6, 7]] }

/-- The graph with the index `f` removed from the operation list of every
block that lists it; the table of operations is unchanged. -/
def Graph.removeFromBlocks (g : Graph) (f : Nat) : Graph :=
  { g with blocks := g.blocks.map (fun b => b.filter (fun i => i ≠ f)) }

/-- The graph with the input list of the operation `f` replaced by the empty
list; indices, kinds and blocks are unchanged. -/
def Graph.clearInputs (g : Graph) (f : Nat) : Graph :=
  { g with operations := g.operations.set f ⟨(g.Get f).opcode, []⟩ }

/-- A StringConcat 3 whose result is read by the FrameState 4 and by the
StringLength 5; the FrameState also reads the operand 1. -/
def frameGraph : Graph :=
  { operations :=
      [⟨Opcode.kOther 1, []⟩, ⟨Opcode.kOther 1, []⟩, ⟨Opcode.kOther 1, []⟩,
       ⟨Opcode.kStringConcat, [0, 1, 2]⟩, ⟨Opcode.kFrameState, [3, 1]⟩,
       ⟨Opcode.kStringLength, [3]⟩, ⟨Opcode.kOther 3, [5]⟩],
    blocks := [[0, 1, 2, 3], [4, 5, 6]] }

/-- The claim's chain for a StringConcat `c`: an ordinary operation `u` and a
non-empty sequence `cs` of StringConcats that starts with an input of `u`, in
which every element after the first is an input of the element before it, and
that ends in `c`. -/
def EscapeChain (g : Graph) (u : Nat) (cs : List Nat) (c : Nat) : Prop :=
  IsDefaultKind g u ∧ (∃ c₁, cs.head? = some c₁ ∧ c₁ ∈ (g.Get u).inputs) ∧
    cs.getLast? = some c ∧ (∀ x ∈ cs, (g.Get x).opcode = Opcode.kStringConcat) ∧
    List.Chain' (fun a b => b ∈ (g.Get a).inputs) cs

/-- No forward references: for every position of the block order, every input
of the operation listed there is listed at an earlier position and at no
position from there on. -/
def NoForwardRefs (g : Graph) : Prop :=
  ∀ k < g.blockOrder.length, ∀ i ∈ (g.Get (g.blockOrder.getD k 0)).inputs,
    i ∈ g.blockOrder.take k ∧ i ∉ g.blockOrder.drop k

instance (g : Graph) : Decidable (NoForwardRefs g) := by
  unfold NoForwardRefs; infer_instance

/-- The spec's description of the deferred list: going through the visits in
order, the StringConcat operations whose flag is false at the moment they are
visited. -/
def UnflaggedWhenVisited (g : Graph) : List Nat → StringEscapeAnalyzer → List Nat
  | [], _ => []
  | index :: rest, st =>
    (if (g.Get index).opcode = Opcode.kStringConcat ∧ st.IsEscaping index = false
      then [index] else []) ++ UnflaggedWhenVisited g rest (ProcessOp g st index)

/-- The two places that put an entry on `to_mark`: the seed push at the start
of `RecursivelyMarkAllStringConcatInputsAsEscaping` and the push inside its
loop. -/
inductive PushSite where
  | seed
  | loop
  deriving DecidableEq, Repr

/-- The pushes onto `to_mark` in the order in which they happen. -/
abbrev PushLog := List (PushSite × Nat)

/-- `MarkInput` with every push recorded. -/
def MarkInputLogged (g : Graph) (acc : (Flags × List Nat) × PushLog) (input_index : Nat) :
    (Flags × List Nat) × PushLog :=
  if (g.Get input_index).opcode = Opcode.kStringConcat ∧ acc.1.1 input_index = false then
    ((acc.1.1.mark input_index, input_index :: acc.1.2),
      acc.2 ++ [(PushSite.loop, input_index)])
  else acc

/-- `MarkStep` with every push recorded. -/
def MarkStepLogged (g : Graph) (F : Flags) (curr : Nat) (rest : List Nat) (log : PushLog) :
    (Flags × List Nat) × PushLog :=
  (g.Get curr).inputs.foldl (MarkInputLogged g) ((F, rest), log)

/-- `MarkLoop` with every push recorded. -/
def MarkLoopLogged (g : Graph) : Nat → List Nat → Flags → PushLog → Option (Flags × PushLog)
  | _, [], F, log => some (F, log)
  | 0, _ :: _, _, _ => none
  | fuel + 1, curr :: rest, F, log =>
    MarkLoopLogged g fuel (MarkStepLogged g F curr rest log).1.2
      (MarkStepLogged g F curr rest log).1.1 (MarkStepLogged g F curr rest log).2

/-- `RecursivelyMarkAllStringConcatInputsAsEscaping` with every push recorded,
the seed push included. -/
def RecursivelyMarkLogged (g : Graph) (F : Flags) (concat : Nat) (log : PushLog) :
    Option (Flags × PushLog) :=
  MarkLoopLogged g (g.operations.length + 1) [concat] F (log ++ [(PushSite.seed, concat)])

/-- `ReprocessCandidate` with every push recorded. -/
def ReprocessCandidateLogged (g : Graph) (F : Flags) (log : PushLog) (index : Nat) :
    Option (Flags × PushLog) :=
  if F index then RecursivelyMarkLogged g F index log else some (F, log)

/-- `ReprocessFrom` with every push recorded. -/
def ReprocessFromLogged (g : Graph) : List Nat → Flags → PushLog → Option (Flags × PushLog)
  | [], F, log => some (F, log)
  | index :: rest, F, log =>
    (ReprocessCandidateLogged g F log index).bind
      (fun r => ReprocessFromLogged g rest r.1 r.2)

/-- The pushes onto `to_mark` during the fix-up pass of `Run`. -/
def FixupPushes (g : Graph) : Option PushLog :=
  (ReprocessFromLogged g (Sweep g).maybe_non_escaping_string_concats_
    (Sweep g).escaping_operations_ []).map Prod.snd

/-- Two StringConcats that consume themselves and each other: 1 is
Concat(1, 2) and 2 is Concat(2, 1), with the length 0. -/
def cyclicGraph : Graph :=
  { operations :=
      [⟨Opcode.kOther 1, []⟩, ⟨Opcode.kStringConcat, [0, 1, 2]⟩,
       ⟨Opcode.kStringConcat, [0, 2, 1]⟩],
    blocks := [[0, 1, 2]] }

/-! ## Traversal order -/

theorem foldl_inv {α β : Type} (P : β → Prop) (f : β → α → β) (l : List α) (b : β)
    (hb : P b) (h : ∀ b a, a ∈ l → P b → P (f b a)) : P (l.foldl f b) := by
  induction l generalizing b with
  | nil => simpa using hb
  | cons x xs ih =>
    simp only [List.foldl_cons]
    exact ih _ (h b x (by simp) hb) (fun b a ha hP => h b a (by simp [ha]) hP)

theorem RunBlocksWith_eq_foldl {σ : Type} (visit : σ → Nat → σ) (g : Graph) :
    ∀ (n : Nat) (s : σ),
      RunBlocksWith visit g n s = ((g.blocks.take n).flatten.reverse).foldl visit s := by
  intro n
  induction n with
  | zero => intro s; simp [RunBlocksWith]
  | succ n ih =>
    intro s
    rw [RunBlocksWith, ih, List.take_succ]
    unfold ProcessBlockWith Graph.OperationIndices
    cases hn : g.blocks[n]? with
    | none => simp [List.getD, hn]
    | some blk => simp [List.getD, hn, List.foldl_append]

theorem foldl_snoc_eq (l : List Nat) (acc : List Nat) :
    l.foldl (fun trace index => trace ++ [index]) acc = acc ++ l := by
  induction l generalizing acc with
  | nil => simp
  | cons x xs ih => simp [ih]

theorem Dispatched_eq (g : Graph) : Dispatched g = g.blockOrder.reverse := by
  unfold Dispatched Graph.block_count Graph.blockOrder
  rw [RunBlocksWith_eq_foldl, foldl_snoc_eq]
  simp

theorem SweepFrom_eq (g : Graph) (st : StringEscapeAnalyzer) :
    SweepFrom g st = (Dispatched g).foldl (ProcessOp g) st := by
  rw [Dispatched_eq]
  unfold SweepFrom Graph.block_count Graph.blockOrder
  rw [RunBlocksWith_eq_foldl]
  simp

/-- C10. The indices the sweep of Run hands to the classifier are exactly the
reverse of the concatenation of the blocks, which is the blocks taken from last
to first, each read from last to first; an index is dispatched as often as it
is listed; whatever the classifier does, the sweep is the fold of the
classifier over that sequence; and a graph without blocks dispatches nothing. -/
theorem traversal_order (g : Graph) :
    Dispatched g = g.blockOrder.reverse ∧
    Dispatched g = (g.blocks.reverse.map List.reverse).flatten ∧
    (∀ i, (Dispatched g).count i = g.blockOrder.count i) ∧
    (∀ (σ : Type) (visit : σ → Nat → σ) (s : σ),
      RunBlocksWith visit g g.block_count s = (Dispatched g).foldl visit s) ∧
    Sweep g = (Dispatched g).foldl (ProcessOp g) fresh ∧
    Dispatched { g with blocks := [] } = [] := by
  refine ⟨Dispatched_eq g, ?_, ?_, ?_, SweepFrom_eq g fresh, ?_⟩
  · rw [Dispatched_eq]
    unfold Graph.blockOrder
    rw [List.reverse_flatten, List.map_reverse]
  · intro i
    rw [Dispatched_eq, List.count_reverse]
  · intro σ visit s
    rw [Dispatched_eq]
    unfold Graph.block_count Graph.blockOrder
    rw [RunBlocksWith_eq_foldl]
    simp
  · rfl

/-! ## The flag store only grows -/

theorem FlagsLe.refl (F : Flags) : FlagsLe F F := fun _ h => h

theorem FlagsLe.trans {F G H : Flags} (h₁ : FlagsLe F G) (h₂ : FlagsLe G H) : FlagsLe F H :=
  fun i h => h₂ i (h₁ i h)

theorem mark_apply (F : Flags) (index i : Nat) :
    F.mark index i = (decide (i = index) || F i) := by
  unfold Flags.mark
  by_cases h : i = index <;> simp [h]

theorem mark_le (F : Flags) (index : Nat) : FlagsLe F (F.mark index) := by
  intro i h
  simp [mark_apply, h]

theorem MarkAllInputs_apply (st : StringEscapeAnalyzer) (op : Operation) (i : Nat) :
    (st.MarkAllInputsAsEscaping op).escaping_operations_ i =
      (st.escaping_operations_ i || decide (i ∈ op.inputs)) := by
  unfold MarkAllInputsAsEscaping
  generalize op.inputs = l
  induction l generalizing st with
  | nil => simp
  | cons x xs ih =>
    simp only [List.foldl_cons]
    rw [ih]
    simp only [mark_apply, List.mem_cons, Bool.decide_or]
    cases st.escaping_operations_ i <;> cases decide (i = x) <;> simp

theorem MarkAllInputs_deferred (st : StringEscapeAnalyzer) (op : Operation) :
    (st.MarkAllInputsAsEscaping op).maybe_non_escaping_string_concats_ =
      st.maybe_non_escaping_string_concats_ := by
  unfold MarkAllInputsAsEscaping
  generalize op.inputs = l
  induction l generalizing st with
  | nil => simp
  | cons x xs ih => simp only [List.foldl_cons]; rw [ih]

theorem MarkAllInputs_le (st : StringEscapeAnalyzer) (op : Operation) :
    FlagsLe st.escaping_operations_ (st.MarkAllInputsAsEscaping op).escaping_operations_ := by
  intro i h
  simp [MarkAllInputs_apply, h]

theorem ProcessOp_le (g : Graph) (st : StringEscapeAnalyzer) (index : Nat) :
    FlagsLe st.escaping_operations_ (ProcessOp g st index).escaping_operations_ := by
  unfold ProcessOp
  split
  · exact FlagsLe.refl _
  · split
    · exact MarkAllInputs_le _ _
    · exact FlagsLe.refl _
  · exact FlagsLe.refl _
  · exact MarkAllInputs_le _ _

theorem foldl_ProcessOp_le (g : Graph) (l : List Nat) (st : StringEscapeAnalyzer) :
    FlagsLe st.escaping_operations_ (l.foldl (ProcessOp g) st).escaping_operations_ := by
  induction l generalizing st with
  | nil => exact FlagsLe.refl _
  | cons x xs ih => exact FlagsLe.trans (ProcessOp_le g st x) (ih _)

/-! ## The worklist loop, one input at a time -/

theorem MarkInput_fold_flags (g : Graph) (l : List Nat) (acc : Flags × List Nat) (i : Nat) :
    (l.foldl (MarkInput g) acc).1 i =
      (acc.1 i || (decide (i ∈ l) && decide ((g.Get i).opcode = Opcode.kStringConcat))) := by
  induction l generalizing acc with
  | nil => simp
  | cons x xs ih =>
    simp only [List.foldl_cons]
    rw [ih]
    unfold MarkInput
    by_cases hx : (g.Get x).opcode = Opcode.kStringConcat ∧ acc.1 x = false
    · rw [if_pos hx]
      simp only [mark_apply, List.mem_cons, Bool.decide_or]
      by_cases hix : i = x
      · subst hix; simp [hx.1]
      · simp [hix]
    · rw [if_neg hx]
      simp only [List.mem_cons, Bool.decide_or]
      by_cases hix : i = x
      · subst hix
        by_cases hsc : (g.Get i).opcode = Opcode.kStringConcat
        · have : acc.1 i = true := by
            cases h : acc.1 i
            · exact absurd ⟨hsc, h⟩ hx
            · rfl
          simp [this]
        · simp [hsc]
      · simp [hix]

theorem MarkInput_fold_worklist (g : Graph) (l : List Nat) (acc : Flags × List Nat) (x : Nat) :
    x ∈ (l.foldl (MarkInput g) acc).2 ↔
      x ∈ acc.2 ∨ (x ∈ l ∧ (g.Get x).opcode = Opcode.kStringConcat ∧ acc.1 x = false) := by
  induction l generalizing acc with
  | nil => simp
  | cons y ys ih =>
    simp only [List.foldl_cons]
    rw [ih]
    unfold MarkInput
    by_cases hy : (g.Get y).opcode = Opcode.kStringConcat ∧ acc.1 y = false
    · rw [if_pos hy]
      simp only [List.mem_cons, mark_apply]
      by_cases hxy : x = y
      · subst hxy; simp [hy.1, hy.2]
      · simp [hxy]
    · rw [if_neg hy]
      simp only [List.mem_cons]
      by_cases hxy : x = y
      · subst hxy
        constructor
        · rintro (h | ⟨_, h1, h2⟩)
          · exact Or.inl h
          · exact absurd ⟨h1, h2⟩ hy
        · rintro (h | ⟨_, h1, h2⟩)
          · exact Or.inl h
          · exact absurd ⟨h1, h2⟩ hy
      · simp [hxy]

theorem MarkStep_le (g : Graph) (F : Flags) (curr : Nat) (rest : List Nat) :
    FlagsLe F (MarkStep g F curr rest).1 := by
  intro i h
  unfold MarkStep
  rw [MarkInput_fold_flags]
  simp [h]

/-! ## Termination of the worklist loop and invariants of the fix-up -/

theorem Get_of_length_le (g : Graph) (i : Nat) (h : g.operations.length ≤ i) :
    g.Get i = ⟨Opcode.kOther 0, []⟩ := by
  unfold Graph.Get
  simp [List.getD, List.getElem?_eq_none h]

theorem lt_length_of_StringConcat (g : Graph) (i : Nat)
    (h : (g.Get i).opcode = Opcode.kStringConcat) : i < g.operations.length := by
  by_contra hlt
  rw [Get_of_length_le g i (Nat.le_of_not_lt hlt)] at h
  exact Opcode.noConfusion h

theorem lt_length_of_mem_inputs (g : Graph) (u i : Nat) (h : i ∈ (g.Get u).inputs) :
    u < g.operations.length := by
  by_contra hlt
  rw [Get_of_length_le g u (Nat.le_of_not_lt hlt)] at h
  simp at h

theorem MarkInput_measure (g : Graph) (acc : Flags × List Nat) (x : Nat) :
    (MarkInput g acc x).2.length + (pending g (MarkInput g acc x).1).card ≤
      acc.2.length + (pending g acc.1).card := by
  unfold MarkInput
  by_cases hx : (g.Get x).opcode = Opcode.kStringConcat ∧ acc.1 x = false
  · rw [if_pos hx]
    have hmem : x ∈ pending g acc.1 := by
      unfold pending
      simp only [Finset.mem_filter, Finset.mem_range]
      exact ⟨lt_length_of_StringConcat g x hx.1, hx.1, hx.2⟩
    have hsub : pending g (acc.1.mark x) ⊆ (pending g acc.1).erase x := by
      intro i hi
      unfold pending at hi
      simp only [Finset.mem_filter, Finset.mem_range, mark_apply, Bool.or_eq_false_iff,
        decide_eq_false_iff_not] at hi
      rw [Finset.mem_erase]
      refine ⟨hi.2.2.1, ?_⟩
      unfold pending
      simp only [Finset.mem_filter, Finset.mem_range]
      exact ⟨hi.1, hi.2.1, hi.2.2.2⟩
    have hcard := Finset.card_le_card hsub
    rw [Finset.card_erase_of_mem hmem] at hcard
    have hpos : 0 < (pending g acc.1).card := Finset.card_pos.mpr ⟨x, hmem⟩
    simp only [List.length_cons]
    omega
  · rw [if_neg hx]

theorem MarkStep_measure (g : Graph) (F : Flags) (curr : Nat) (rest : List Nat) :
    (MarkStep g F curr rest).2.length + (pending g (MarkStep g F curr rest).1).card ≤
      rest.length + (pending g F).card := by
  unfold MarkStep
  exact foldl_inv
    (fun acc => acc.2.length + (pending g acc.1).card ≤ rest.length + (pending g F).card)
    (MarkInput g) _ (F, rest) (Nat.le_refl _)
    (fun b a _ hb => Nat.le_trans (MarkInput_measure g b a) hb)

/-- Invariant rule for the worklist loop: with enough iterations allowed the
loop returns, and whatever one iteration preserves holds of the result with the
worklist empty. -/
theorem MarkLoop_induct (g : Graph) (Inv : List Nat → Flags → Prop)
    (hstep : ∀ curr wl F, Inv (curr :: wl) F →
      Inv (MarkStep g F curr wl).2 (MarkStep g F curr wl).1) :
    ∀ (fuel : Nat) (wl : List Nat) (F : Flags),
      wl.length + (pending g F).card ≤ fuel → Inv wl F →
      ∃ F', MarkLoop g fuel wl F = some F' ∧ Inv [] F' := by
  intro fuel
  induction fuel with
  | zero =>
    intro wl F hfuel hinv
    cases wl with
    | nil => exact ⟨F, by simp [MarkLoop], hinv⟩
    | cons c cs => simp at hfuel
  | succ fuel ih =>
    intro wl F hfuel hinv
    cases wl with
    | nil => exact ⟨F, by simp [MarkLoop], hinv⟩
    | cons c cs =>
      simp only [MarkLoop]
      apply ih
      · have := MarkStep_measure g F c cs
        simp only [List.length_cons] at hfuel
        omega
      · exact hstep c cs F hinv

theorem pending_card_le (g : Graph) (F : Flags) : (pending g F).card ≤ g.operations.length := by
  unfold pending
  exact Nat.le_trans (Finset.card_filter_le _ _) (by simp)

/-- Invariant rule for the whole fix-up pass.  The invariant speaks of the
candidates still to handle, the worklist and the flag store. -/
theorem ReprocessFrom_induct (g : Graph) (Inv : List Nat → List Nat → Flags → Prop)
    (hskip : ∀ index rest F, Inv (index :: rest) [] F → F index = false → Inv rest [] F)
    (hseed : ∀ index rest F, Inv (index :: rest) [] F → F index = true → Inv rest [index] F)
    (hstep : ∀ cands curr wl F, Inv cands (curr :: wl) F →
      Inv cands (MarkStep g F curr wl).2 (MarkStep g F curr wl).1) :
    ∀ (cands : List Nat) (F : Flags), Inv cands [] F →
      ∃ F', ReprocessFrom g cands F = some F' ∧ Inv [] [] F' := by
  intro cands
  induction cands with
  | nil => intro F h; exact ⟨F, rfl, h⟩
  | cons index rest ih =>
    intro F h
    simp only [ReprocessFrom, ReprocessCandidate]
    by_cases hF : F index = true
    · rw [if_pos hF]
      obtain ⟨F₁, hF₁, hinv₁⟩ :=
        MarkLoop_induct g (Inv rest) (hstep rest) (g.operations.length + 1) [index] F
          (by have := pending_card_le g F; simp only [List.length_singleton]; omega)
          (hseed index rest F h hF)
      unfold RecursivelyMarkAllStringConcatInputsAsEscaping
      rw [hF₁]
      exact ih F₁ hinv₁
    · rw [if_neg hF]
      simp only [Bool.not_eq_true] at hF
      exact ih F (hskip index rest F h hF)

theorem ReprocessFrom_append (g : Graph) (xs ys : List Nat) (F : Flags) :
    ReprocessFrom g (xs ++ ys) F = (ReprocessFrom g xs F).bind (ReprocessFrom g ys) := by
  induction xs generalizing F with
  | nil => simp [ReprocessFrom]
  | cons x xs ih =>
    simp only [List.cons_append, ReprocessFrom]
    cases ReprocessCandidate g F x with
    | none => simp
    | some F₁ => simp [ih]

theorem MarkInput_le (g : Graph) (acc : Flags × List Nat) (x : Nat) :
    FlagsLe acc.1 (MarkInput g acc x).1 := by
  unfold MarkInput
  split
  · exact mark_le _ _
  · exact FlagsLe.refl _

theorem MarkLoop_le (g : Graph) :
    ∀ (fuel : Nat) (wl : List Nat) (F F' : Flags),
      MarkLoop g fuel wl F = some F' → FlagsLe F F' := by
  intro fuel
  induction fuel with
  | zero =>
    intro wl F F' h
    cases wl with
    | nil =>
      simp only [MarkLoop, Option.some.injEq] at h
      subst h
      exact FlagsLe.refl _
    | cons c cs => simp [MarkLoop] at h
  | succ fuel ih =>
    intro wl F F' h
    cases wl with
    | nil =>
      simp only [MarkLoop, Option.some.injEq] at h
      subst h
      exact FlagsLe.refl _
    | cons c cs =>
      simp only [MarkLoop] at h
      exact FlagsLe.trans (MarkStep_le g F c cs) (ih _ _ _ h)

theorem ReprocessCandidate_le (g : Graph) (F F' : Flags) (index : Nat)
    (h : ReprocessCandidate g F index = some F') : FlagsLe F F' := by
  unfold ReprocessCandidate at h
  split at h
  · exact MarkLoop_le g _ _ _ _ h
  · simp only [Option.some.injEq] at h
    subst h
    exact FlagsLe.refl _

theorem ReprocessFrom_le (g : Graph) :
    ∀ (cands : List Nat) (F F' : Flags),
      ReprocessFrom g cands F = some F' → FlagsLe F F' := by
  intro cands
  induction cands with
  | nil =>
    intro F F' h
    simp only [ReprocessFrom, Option.some.injEq] at h
    subst h
    exact FlagsLe.refl _
  | cons c cs ih =>
    intro F F' h
    simp only [ReprocessFrom] at h
    cases hc : ReprocessCandidate g F c with
    | none => simp [hc] at h
    | some F₁ =>
      rw [hc] at h
      exact FlagsLe.trans (ReprocessCandidate_le g F F₁ c hc) (ih F₁ F' h)

/-- The fix-up pass returns from every flag store and every candidate list. -/
theorem ReprocessFrom_total (g : Graph) (cands : List Nat) (F : Flags) :
    ∃ F', ReprocessFrom g cands F = some F' := by
  obtain ⟨F', h, _⟩ :=
    ReprocessFrom_induct g (fun _ _ _ => True) (fun _ _ _ _ _ => trivial)
      (fun _ _ _ _ _ => trivial) (fun _ _ _ _ _ => trivial) cands F trivial
  exact ⟨F', h⟩

theorem ReprocessCandidate_total (g : Graph) (F : Flags) (index : Nat) :
    ∃ F', ReprocessCandidate g F index = some F' := by
  obtain ⟨F', h⟩ := ReprocessFrom_total g [index] F
  simp only [ReprocessFrom] at h
  cases hc : ReprocessCandidate g F index with
  | none => simp [hc] at h
  | some F₁ => exact ⟨F₁, rfl⟩

/-- The run returns: the result is the sweep's state with the flag store the
fix-up pass leaves. -/
theorem Run_eq_some (g : Graph) :
    ∃ F, ReprocessFrom g (Sweep g).maybe_non_escaping_string_concats_
          (Sweep g).escaping_operations_ = some F ∧
      Run g = some { Sweep g with escaping_operations_ := F } := by
  obtain ⟨F, h⟩ := ReprocessFrom_total g (Sweep g).maybe_non_escaping_string_concats_
    (Sweep g).escaping_operations_
  exact ⟨F, h, by simp [Run, ReprocessStringConcats, h]⟩

/-- C8. Monotonicity: processing one operation, one call of
MarkAllInputsAsEscaping, one visit of an input and one iteration of the worklist
loop, the rest of a worklist loop from any of its states, one candidate of
ReprocessStringConcats and the rest of the fix-up from any of its states all
keep every flag that is set.  Hence Run returns, and a flag that is set after
any prefix of the sweep or after any prefix of the candidates of the fix-up is
set in the final flag store. -/
theorem flags_monotone (g : Graph) :
    (∀ st index,
      FlagsLe st.escaping_operations_ (ProcessOp g st index).escaping_operations_) ∧
    (∀ (st : StringEscapeAnalyzer) op,
      FlagsLe st.escaping_operations_ (st.MarkAllInputsAsEscaping op).escaping_operations_) ∧
    (∀ acc x, FlagsLe acc.1 (MarkInput g acc x).1) ∧
    (∀ F curr rest, FlagsLe F (MarkStep g F curr rest).1) ∧
    (∀ fuel wl F F', MarkLoop g fuel wl F = some F' → FlagsLe F F') ∧
    (∀ F index, ∃ F', ReprocessCandidate g F index = some F' ∧ FlagsLe F F') ∧
    (∀ cands F, ∃ F', ReprocessFrom g cands F = some F' ∧ FlagsLe F F') ∧
    (∃ final, Run g = some final ∧
      (∀ xs ys, Dispatched g = xs ++ ys →
        FlagsLe (xs.foldl (ProcessOp g) fresh).escaping_operations_
          final.escaping_operations_) ∧
      (∀ xs ys, (Sweep g).maybe_non_escaping_string_concats_ = xs ++ ys →
        ∃ F, ReprocessFrom g xs (Sweep g).escaping_operations_ = some F ∧
          FlagsLe F final.escaping_operations_)) := by
  refine ⟨ProcessOp_le g, MarkAllInputs_le, MarkInput_le g, MarkStep_le g, MarkLoop_le g,
    ?_, ?_, ?_⟩
  · intro F index
    obtain ⟨F', h⟩ := ReprocessCandidate_total g F index
    exact ⟨F', h, ReprocessCandidate_le g F F' index h⟩
  · intro cands F
    obtain ⟨F', h⟩ := ReprocessFrom_total g cands F
    exact ⟨F', h, ReprocessFrom_le g cands F F' h⟩
  · obtain ⟨F, hF, hrun⟩ := Run_eq_some g
    refine ⟨_, hrun, ?_, ?_⟩
    · intro xs ys hsplit
      have hsweep : Sweep g = ys.foldl (ProcessOp g) (xs.foldl (ProcessOp g) fresh) := by
        unfold Sweep
        rw [SweepFrom_eq, hsplit, List.foldl_append]
      refine FlagsLe.trans ?_ (ReprocessFrom_le g _ _ _ hF)
      rw [hsweep]
      exact foldl_ProcessOp_le g ys _
    · intro xs ys hsplit
      rw [hsplit, ReprocessFrom_append] at hF
      cases hx : ReprocessFrom g xs (Sweep g).escaping_operations_ with
      | none => simp [hx] at hF
      | some F₁ =>
        rw [hx] at hF
        exact ⟨F₁, rfl, ReprocessFrom_le g ys F₁ F hF⟩

/-! ## What the sweep flags -/

theorem RunIsEscaping_spec (g : Graph) :
    ∃ F, ReprocessFrom g (Sweep g).maybe_non_escaping_string_concats_
          (Sweep g).escaping_operations_ = some F ∧
      FlagsLe (Sweep g).escaping_operations_ F ∧
      ∀ i, RunIsEscaping g i = some (F i) := by
  obtain ⟨F, hF, hrun⟩ := Run_eq_some g
  exact ⟨F, hF, ReprocessFrom_le g _ _ _ hF, fun i => by simp [RunIsEscaping, hrun, IsEscaping]⟩

theorem ProcessOp_default (g : Graph) (st : StringEscapeAnalyzer) (u : Nat)
    (hu : IsDefaultKind g u) :
    ProcessOp g st u = st.MarkAllInputsAsEscaping (g.Get u) := by
  obtain ⟨h1, h2, h3⟩ := hu
  unfold ProcessOp
  split
  · next h => exact absurd h h1
  · next h => exact absurd h h2
  · next h => exact absurd h h3
  · rfl

theorem ProcessOp_StringConcat (g : Graph) (st : StringEscapeAnalyzer) (c : Nat)
    (hc : (g.Get c).opcode = Opcode.kStringConcat) :
    ProcessOp g st c =
      if st.IsEscaping c then st.MarkAllInputsAsEscaping (g.Get c)
      else { st with maybe_non_escaping_string_concats_ :=
                      st.maybe_non_escaping_string_concats_ ++ [c] } := by
  unfold ProcessOp
  rw [hc]

theorem foldl_ProcessOp_default_marks (g : Graph) (l : List Nat) (st : StringEscapeAnalyzer)
    (u c : Nat) (hu : IsDefaultKind g u) (hin : c ∈ (g.Get u).inputs) (hl : u ∈ l) :
    (l.foldl (ProcessOp g) st).escaping_operations_ c = true := by
  obtain ⟨xs, ys, rfl⟩ := List.append_of_mem hl
  rw [List.foldl_append, List.foldl_cons]
  apply foldl_ProcessOp_le g ys
  rw [ProcessOp_default g _ u hu, MarkAllInputs_apply]
  simp [hin]

theorem Sweep_default_marks (g : Graph) (u c : Nat) (hu : IsDefaultKind g u)
    (hin : c ∈ (g.Get u).inputs) (hl : u ∈ g.blockOrder) :
    (Sweep g).escaping_operations_ c = true := by
  unfold Sweep
  rw [SweepFrom_eq, Dispatched_eq]
  exact foldl_ProcessOp_default_marks g _ _ u c hu hin (by simpa using hl)

/-- C1. In a graph in which every operation is listed in some block, a
StringConcat that is an input of an operation whose kind is none of FrameState,
StringConcat and StringLength is flagged escaping when Run has returned,
wherever the consumer sits relative to it in block order. -/
theorem default_consumer_escapes (g : Graph) (hlisted : g.AllListed) (c u : Nat)
    (_hc : (g.Get c).opcode = Opcode.kStringConcat)
    (hFS : (g.Get u).opcode ≠ Opcode.kFrameState)
    (hSC : (g.Get u).opcode ≠ Opcode.kStringConcat)
    (hSL : (g.Get u).opcode ≠ Opcode.kStringLength)
    (hin : c ∈ (g.Get u).inputs) :
    RunIsEscaping g c = some true := by
  obtain ⟨F, _, hle, hF⟩ := RunIsEscaping_spec g
  rw [hF c]
  congr 1
  apply hle
  exact Sweep_default_marks g u c ⟨hFS, hSC, hSL⟩ hin
    (hlisted u (lt_length_of_mem_inputs g u c hin))

theorem default_consumer_escapes_witness :
    loopGraph.AllListed ∧ (loopGraph.Get 4).opcode = Opcode.kStringConcat ∧
      4 ∈ (loopGraph.Get 3).inputs ∧ RunIsEscaping loopGraph 4 = some true :=
  ⟨by decide, by decide, by decide,
    default_consumer_escapes loopGraph (by decide) 4 3 (by decide) (by decide) (by decide)
      (by decide) (by decide)⟩

/-! ## Every flag has a reason -/

theorem ProcessOp_Justified (g : Graph) (st : StringEscapeAnalyzer) (index : Nat)
    (h : (∀ i, st.escaping_operations_ i = true → Justified g i) ∧
      ∀ c ∈ st.maybe_non_escaping_string_concats_, (g.Get c).opcode = Opcode.kStringConcat) :
    (∀ i, (ProcessOp g st index).escaping_operations_ i = true → Justified g i) ∧
      ∀ c ∈ (ProcessOp g st index).maybe_non_escaping_string_concats_,
        (g.Get c).opcode = Opcode.kStringConcat := by
  obtain ⟨hJ, hD⟩ := h
  by_cases hsc : (g.Get index).opcode = Opcode.kStringConcat
  · rw [ProcessOp_StringConcat g st index hsc]
    by_cases hesc : st.IsEscaping index = true
    · rw [if_pos hesc]
      refine ⟨fun i hi => ?_, by rw [MarkAllInputs_deferred]; exact hD⟩
      rw [MarkAllInputs_apply] at hi
      simp only [Bool.or_eq_true, decide_eq_true_eq] at hi
      rcases hi with hi | hi
      · exact hJ i hi
      · exact Justified.via index i hsc (hJ index hesc) hi
    · rw [if_neg hesc]
      refine ⟨hJ, fun c hc => ?_⟩
      simp only [List.mem_append, List.mem_singleton] at hc
      rcases hc with hc | hc
      · exact hD c hc
      · rw [hc]; exact hsc
  · by_cases hdef : IsDefaultKind g index
    · rw [ProcessOp_default g st index hdef]
      refine ⟨fun i hi => ?_, by rw [MarkAllInputs_deferred]; exact hD⟩
      rw [MarkAllInputs_apply] at hi
      simp only [Bool.or_eq_true, decide_eq_true_eq] at hi
      rcases hi with hi | hi
      · exact hJ i hi
      · exact Justified.direct index i hdef hi
    · have hst : ProcessOp g st index = st := by
        unfold ProcessOp
        split
        · rfl
        · next h => exact absurd h hsc
        · rfl
        · next t h =>
          exact absurd ⟨by rw [h]; exact Opcode.noConfusion, by rw [h]; exact Opcode.noConfusion,
            by rw [h]; exact Opcode.noConfusion⟩ hdef
      rw [hst]
      exact ⟨hJ, hD⟩

theorem Sweep_Justified (g : Graph) :
    (∀ i, (Sweep g).escaping_operations_ i = true → Justified g i) ∧
      ∀ c ∈ (Sweep g).maybe_non_escaping_string_concats_,
        (g.Get c).opcode = Opcode.kStringConcat := by
  unfold Sweep
  rw [SweepFrom_eq]
  exact foldl_inv
    (fun st => (∀ i, st.escaping_operations_ i = true → Justified g i) ∧
      ∀ c ∈ st.maybe_non_escaping_string_concats_, (g.Get c).opcode = Opcode.kStringConcat)
    (ProcessOp g) _ fresh
    ⟨fun i hi => by simp [fresh] at hi, fun c hc => by simp [fresh] at hc⟩
    (fun st index _ h => ProcessOp_Justified g st index h)

/-- From a state in which every flag has a reason and all candidates are
StringConcats, the fix-up returns a flag store in which every flag has a
reason. -/
theorem ReprocessFrom_Justified (g : Graph) (cands : List Nat) (F : Flags)
    (hJ : ∀ i, F i = true → Justified g i)
    (hD : ∀ c ∈ cands, (g.Get c).opcode = Opcode.kStringConcat) :
    ∃ F', ReprocessFrom g cands F = some F' ∧ ∀ i, F' i = true → Justified g i := by
  obtain ⟨F', hF', hinv⟩ :=
    ReprocessFrom_induct g
      (fun cands wl F => (∀ i, F i = true → Justified g i) ∧
        (∀ c ∈ cands, (g.Get c).opcode = Opcode.kStringConcat) ∧
        ∀ c ∈ wl, (g.Get c).opcode = Opcode.kStringConcat ∧ F c = true)
      (fun index rest F h _ =>
        ⟨h.1, fun c hc => h.2.1 c (List.mem_cons_of_mem _ hc), fun c hc => by simp at hc⟩)
      (fun index rest F h hF =>
        ⟨h.1, fun c hc => h.2.1 c (List.mem_cons_of_mem _ hc), fun c hc => by
          simp only [List.mem_singleton] at hc
          subst hc
          exact ⟨h.2.1 c (List.mem_cons_self _ _), hF⟩⟩)
      (fun cands curr wl F h => by
        obtain ⟨h1, h2, h3⟩ := h
        have hcurr := h3 curr (List.mem_cons_self _ _)
        refine ⟨fun i hi => ?_, h2, fun c hc => ?_⟩
        · unfold MarkStep at hi
          rw [MarkInput_fold_flags] at hi
          simp only [Bool.or_eq_true, Bool.and_eq_true, decide_eq_true_eq] at hi
          rcases hi with hi | ⟨hi, _⟩
          · exact h1 i hi
          · exact Justified.via curr i hcurr.1 (h1 curr hcurr.2) hi
        · unfold MarkStep at hc ⊢
          rw [MarkInput_fold_worklist] at hc
          rw [MarkInput_fold_flags]
          rcases hc with hc | ⟨hc, hsc, _⟩
          · have := h3 c (List.mem_cons_of_mem _ hc)
            exact ⟨this.1, by simp [this.2]⟩
          · exact ⟨hsc, by simp [hc, hsc]⟩)
      cands F ⟨hJ, hD, fun c hc => by simp at hc⟩
  exact ⟨F', hF', hinv.1⟩

/-- An operation flagged after Run has a reason. -/
theorem Run_Justified (g : Graph) (i : Nat) (h : RunIsEscaping g i = some true) :
    Justified g i := by
  obtain ⟨F, hF, _, hrun⟩ := RunIsEscaping_spec g
  obtain ⟨F', hF', hJ⟩ := ReprocessFrom_Justified g _ _ (Sweep_Justified g).1 (Sweep_Justified g).2
  rw [hF] at hF'
  simp only [Option.some.injEq] at hF'
  subst hF'
  rw [hrun i] at h
  simp only [Option.some.injEq] at h
  exact hJ i h

theorem RunIsEscaping_false_of_not_Justified (g : Graph) (i : Nat) (h : ¬ Justified g i) :
    RunIsEscaping g i = some false := by
  obtain ⟨F, _, _, hrun⟩ := RunIsEscaping_spec g
  cases hFi : F i with
  | false => rw [hrun i, hFi]
  | true => exact absurd (Run_Justified g i (by rw [hrun i, hFi])) h

theorem not_Justified_of_only_StringLength (g : Graph) (c : Nat)
    (honly : ∀ u < g.operations.length, c ∈ (g.Get u).inputs →
      (g.Get u).opcode = Opcode.kStringLength) : ¬ Justified g c := by
  intro hJ
  cases hJ with
  | direct u _ hu hin =>
    exact hu.2.2 (honly u (lt_length_of_mem_inputs g u c hin) hin)
  | via c' _ hsc _ hin =>
    have := honly c' (lt_length_of_mem_inputs g c' c hin) hin
    rw [hsc] at this
    exact Opcode.noConfusion this

/-- C4. StringLength transparency: a StringConcat that only StringLength
operations have among their inputs is not flagged when Run has returned. -/
theorem string_length_transparent (g : Graph) (c : Nat)
    (_hc : (g.Get c).opcode = Opcode.kStringConcat)
    (honly : ∀ u < g.operations.length, c ∈ (g.Get u).inputs →
      (g.Get u).opcode = Opcode.kStringLength) :
    RunIsEscaping g c = some false :=
  RunIsEscaping_false_of_not_Justified g c (not_Justified_of_only_StringLength g c honly)

theorem string_length_transparent_witness :
    (lengthGraph.Get 4).opcode = Opcode.kStringConcat ∧
      4 ∈ (lengthGraph.Get 5).inputs ∧ RunIsEscaping lengthGraph 4 = some false :=
  ⟨by decide, by decide, string_length_transparent lengthGraph 4 (by decide) (by decide)⟩

/-- C5. Non-escaping baseline: when the only consumer of the StringConcat inner
is the StringConcat outer and the only consumers of outer are StringLength
operations, neither of the two is flagged when Run has returned. -/
theorem non_escaping_baseline (g : Graph) (inner outer : Nat)
    (_hinner : (g.Get inner).opcode = Opcode.kStringConcat)
    (houter : (g.Get outer).opcode = Opcode.kStringConcat)
    (hin : ∀ u < g.operations.length, inner ∈ (g.Get u).inputs → u = outer)
    (hout : ∀ u < g.operations.length, outer ∈ (g.Get u).inputs →
      (g.Get u).opcode = Opcode.kStringLength) :
    RunIsEscaping g inner = some false ∧ RunIsEscaping g outer = some false := by
  have houter' := not_Justified_of_only_StringLength g outer hout
  refine ⟨RunIsEscaping_false_of_not_Justified g inner ?_,
    RunIsEscaping_false_of_not_Justified g outer houter'⟩
  intro hJ
  cases hJ with
  | direct u _ hu hmem =>
    have := hin u (lt_length_of_mem_inputs g u inner hmem) hmem
    subst this
    exact hu.2.1 houter
  | via c' _ _ hJc hmem =>
    have := hin c' (lt_length_of_mem_inputs g c' inner hmem) hmem
    subst this
    exact houter' hJc

theorem non_escaping_baseline_witness :
    3 ∈ (lengthGraph.Get 4).inputs ∧ 4 ∈ (lengthGraph.Get 5).inputs ∧
      RunIsEscaping lengthGraph 3 = some false ∧ RunIsEscaping lengthGraph 4 = some false :=
  ⟨by decide, by decide,
    non_escaping_baseline lengthGraph 3 4 (by decide) (by decide) (by decide) (by decide)⟩

/-! ## The result is closed under StringConcat inputs -/

theorem Closed_mono (g : Graph) {F F' : Flags} (h : FlagsLe F F') (o : Nat)
    (hc : Closed g F o) : Closed g F' o :=
  fun i hi hsc => h i (hc i hi hsc)

theorem ProcessOp_deferred_grows (g : Graph) (st : StringEscapeAnalyzer) (index c : Nat)
    (h : c ∈ st.maybe_non_escaping_string_concats_) :
    c ∈ (ProcessOp g st index).maybe_non_escaping_string_concats_ := by
  unfold ProcessOp
  split
  · exact h
  · split
    · rw [MarkAllInputs_deferred]; exact h
    · simp [h]
  · exact h
  · rw [MarkAllInputs_deferred]; exact h

theorem foldl_ProcessOp_deferred_grows (g : Graph) (l : List Nat) (st : StringEscapeAnalyzer)
    (c : Nat) (h : c ∈ st.maybe_non_escaping_string_concats_) :
    c ∈ (l.foldl (ProcessOp g) st).maybe_non_escaping_string_concats_ := by
  induction l generalizing st with
  | nil => exact h
  | cons x xs ih => exact ih _ (ProcessOp_deferred_grows g st x c h)

/-- Visiting a StringConcat either finds it flagged and flags all its inputs,
or defers it. -/
theorem ProcessOp_StringConcat_cases (g : Graph) (st : StringEscapeAnalyzer) (c : Nat)
    (hc : (g.Get c).opcode = Opcode.kStringConcat) :
    (st.IsEscaping c = true ∧
        ∀ i ∈ (g.Get c).inputs, (ProcessOp g st c).escaping_operations_ i = true) ∨
      (st.IsEscaping c = false ∧
        c ∈ (ProcessOp g st c).maybe_non_escaping_string_concats_) := by
  rw [ProcessOp_StringConcat g st c hc]
  by_cases hesc : st.IsEscaping c = true
  · left
    rw [if_pos hesc]
    exact ⟨hesc, fun i hi => by rw [MarkAllInputs_apply]; simp [hi]⟩
  · right
    rw [if_neg hesc]
    exact ⟨by simpa using hesc, by simp⟩

theorem foldl_ProcessOp_closed (g : Graph) (l : List Nat) (st : StringEscapeAnalyzer)
    (o : Nat) (ho : o ∈ l) (hsc : (g.Get o).opcode = Opcode.kStringConcat) :
    Closed g (l.foldl (ProcessOp g) st).escaping_operations_ o ∨
      o ∈ (l.foldl (ProcessOp g) st).maybe_non_escaping_string_concats_ := by
  obtain ⟨xs, ys, rfl⟩ := List.append_of_mem ho
  rw [List.foldl_append, List.foldl_cons]
  rcases ProcessOp_StringConcat_cases g (xs.foldl (ProcessOp g) st) o hsc with ⟨_, h⟩ | ⟨_, h⟩
  · left
    exact fun i hi _ => foldl_ProcessOp_le g ys _ i (h i hi)
  · right
    exact foldl_ProcessOp_deferred_grows g ys _ o h

/-- The fix-up closes the flag store: from a state in which every flagged
StringConcat of the set `L` is closed or still a candidate, it returns a flag
store in which every flagged StringConcat of `L` is closed. -/
theorem ReprocessFrom_closed (g : Graph) (L : Nat → Prop) (cands : List Nat) (F : Flags)
    (h : ∀ o, (g.Get o).opcode = Opcode.kStringConcat → F o = true →
      L o → Closed g F o ∨ o ∈ cands) :
    ∃ F', ReprocessFrom g cands F = some F' ∧
      ∀ o, (g.Get o).opcode = Opcode.kStringConcat → F' o = true →
        (L o ∨ F o = false) → Closed g F' o := by
  obtain ⟨F', hF', hinv⟩ :=
    ReprocessFrom_induct g
      (fun cands wl F₁ => FlagsLe F F₁ ∧
        ∀ o, (g.Get o).opcode = Opcode.kStringConcat → F₁ o = true →
          (L o ∨ F o = false) → Closed g F₁ o ∨ o ∈ wl ∨ o ∈ cands)
      (fun index rest F₁ hI hidx => ⟨hI.1, fun o hsc hFo hL => by
        rcases hI.2 o hsc hFo hL with h | h | h
        · exact Or.inl h
        · simp at h
        · simp only [List.mem_cons] at h
          rcases h with h | h
          · subst h; rw [hidx] at hFo; exact absurd hFo (by simp)
          · exact Or.inr (Or.inr h)⟩)
      (fun index rest F₁ hI _ => ⟨hI.1, fun o hsc hFo hL => by
        rcases hI.2 o hsc hFo hL with h | h | h
        · exact Or.inl h
        · simp at h
        · simp only [List.mem_cons] at h
          rcases h with h | h
          · subst h; exact Or.inr (Or.inl (by simp))
          · exact Or.inr (Or.inr h)⟩)
      (fun cands curr wl F₁ hI => by
        refine ⟨FlagsLe.trans hI.1 (MarkStep_le g F₁ curr wl), fun o hsc hFo hL => ?_⟩
        by_cases hold : F₁ o = true
        · rcases hI.2 o hsc hold hL with h | h | h
          · exact Or.inl (Closed_mono g (MarkStep_le g F₁ curr wl) o h)
          · simp only [List.mem_cons] at h
            rcases h with h | h
            · subst h
              left
              intro i hi hisc
              unfold MarkStep
              rw [MarkInput_fold_flags]
              simp [hi, hisc]
            · right; left
              unfold MarkStep
              rw [MarkInput_fold_worklist]
              exact Or.inl h
          · exact Or.inr (Or.inr h)
        · right; left
          simp only [Bool.not_eq_true] at hold
          unfold MarkStep at hFo ⊢
          rw [MarkInput_fold_flags] at hFo
          rw [MarkInput_fold_worklist]
          simp only [hold, Bool.false_or, Bool.and_eq_true, decide_eq_true_eq] at hFo
          exact Or.inr ⟨hFo.1, hsc, hold⟩)
      cands F ⟨FlagsLe.refl F, fun o hsc hFo hL => by
        rcases hL with hL | hL
        · rcases h o hsc hFo hL with h | h
          · exact Or.inl h
          · exact Or.inr (Or.inr h)
        · rw [hL] at hFo; exact absurd hFo (by simp)⟩
  refine ⟨F', hF', fun o hsc hFo hL => ?_⟩
  rcases hinv.2 o hsc hFo hL with h | h | h
  · exact h
  · simp at h
  · simp at h

/-- After Run, a flagged StringConcat that is listed in a block has all its
StringConcat inputs flagged. -/
theorem Run_closed (g : Graph) (o i : Nat) (hlisted : o ∈ g.blockOrder)
    (hsc : (g.Get o).opcode = Opcode.kStringConcat)
    (ho : RunIsEscaping g o = some true) (hi : i ∈ (g.Get o).inputs)
    (hisc : (g.Get i).opcode = Opcode.kStringConcat) :
    RunIsEscaping g i = some true := by
  obtain ⟨F, hF, _, hrun⟩ := RunIsEscaping_spec g
  obtain ⟨F', hF', hcl⟩ :=
    ReprocessFrom_closed g (fun o => o ∈ g.blockOrder)
      (Sweep g).maybe_non_escaping_string_concats_ (Sweep g).escaping_operations_
      (fun o hsc _ hL => by
        have hmem : o ∈ Dispatched g := by
          rw [Dispatched_eq]
          simpa using hL
        unfold Sweep
        rw [SweepFrom_eq]
        exact foldl_ProcessOp_closed g _ fresh o hmem hsc)
  rw [hF] at hF'
  simp only [Option.some.injEq] at hF'
  subst hF'
  rw [hrun o] at ho
  simp only [Option.some.injEq] at ho
  rw [hrun i]
  congr 1
  exact hcl o hsc ho (Or.inl hlisted) i hi hisc

/-- C9. In a graph in which every operation is listed in some block, when Run
has returned every StringConcat that is an input of a flagged StringConcat is
flagged itself, whether the outer one was flagged before or after the sweep
visited it. -/
theorem concat_inputs_closed (g : Graph) (hlisted : g.AllListed) (o i : Nat)
    (hsc : (g.Get o).opcode = Opcode.kStringConcat)
    (ho : RunIsEscaping g o = some true) (hi : i ∈ (g.Get o).inputs)
    (hisc : (g.Get i).opcode = Opcode.kStringConcat) :
    RunIsEscaping g i = some true :=
  Run_closed g o i (hlisted o (lt_length_of_StringConcat g o hsc)) hsc ho hi hisc

theorem concat_inputs_closed_witness :
    chainGraph.AllListed ∧ (chainGraph.Get 6).opcode = Opcode.kStringConcat ∧
      RunIsEscaping chainGraph 6 = some true ∧ 5 ∈ (chainGraph.Get 6).inputs ∧
      (chainGraph.Get 5).opcode = Opcode.kStringConcat ∧
      (Sweep chainGraph).IsEscaping 5 = false ∧
      RunIsEscaping chainGraph 5 = some true :=
  ⟨by decide, by decide, by decide, by decide, by decide, by decide,
    concat_inputs_closed chainGraph (by decide) 6 5 (by decide) (by decide) (by decide)
      (by decide)⟩

/-! ## Inputs of an escaping StringConcat -/

/-- A StringConcat whose flag is set when the sweep visits it has all its
inputs flagged when Run has returned. -/
theorem Run_inputs_of_FlaggedWhenVisited (g : Graph) (c i : Nat)
    (hc : (g.Get c).opcode = Opcode.kStringConcat) (hv : FlaggedWhenVisited g c)
    (hi : i ∈ (g.Get c).inputs) : RunIsEscaping g i = some true := by
  obtain ⟨xs, ys, hsplit, hflag⟩ := hv
  obtain ⟨F, _, hle, hrun⟩ := RunIsEscaping_spec g
  rw [hrun i]
  congr 1
  apply hle
  unfold Sweep
  rw [SweepFrom_eq, hsplit, List.foldl_append, List.foldl_cons]
  apply foldl_ProcessOp_le g ys
  rcases ProcessOp_StringConcat_cases g (xs.foldl (ProcessOp g) fresh) c hc with ⟨_, h⟩ | ⟨h, _⟩
  · exact h i hi
  · rw [hflag] at h; exact absurd h (by simp)

/-- A StringConcat listed before one of its ordinary consumers is visited
after it, hence with its flag set. -/
theorem FlaggedWhenVisited_of_later_consumer (g : Graph) (c u : Nat) (A B : List Nat)
    (hu : IsDefaultKind g u) (hin : c ∈ (g.Get u).inputs)
    (horder : g.blockOrder = A ++ c :: B) (huB : u ∈ B) : FlaggedWhenVisited g c := by
  refine ⟨B.reverse, A.reverse, ?_, ?_⟩
  · rw [Dispatched_eq, horder]
    simp
  · exact foldl_ProcessOp_default_marks g B.reverse fresh u c hu hin (by simpa using huB)

/-- C2, as the code has it. In a graph in which every operation is listed in
some block, let the StringConcat c be an input of an operation u whose kind is
none of FrameState, StringConcat and StringLength.  When Run has returned,
every input of c that is a StringConcat is flagged; and when c is listed before
u in block order, so that the sweep visits u first, every input of c is
flagged, whatever its kind. -/
theorem default_consumer_inputs (g : Graph) (hlisted : g.AllListed) (c u : Nat)
    (hc : (g.Get c).opcode = Opcode.kStringConcat)
    (hFS : (g.Get u).opcode ≠ Opcode.kFrameState)
    (hSC : (g.Get u).opcode ≠ Opcode.kStringConcat)
    (hSL : (g.Get u).opcode ≠ Opcode.kStringLength)
    (hin : c ∈ (g.Get u).inputs) :
    (∀ i ∈ (g.Get c).inputs, (g.Get i).opcode = Opcode.kStringConcat →
      RunIsEscaping g i = some true) ∧
    (∀ A B, g.blockOrder = A ++ c :: B → u ∈ B →
      ∀ i ∈ (g.Get c).inputs, RunIsEscaping g i = some true) := by
  have hesc : RunIsEscaping g c = some true := by
    obtain ⟨F, _, hle, hF⟩ := RunIsEscaping_spec g
    rw [hF c]
    congr 1
    exact hle c (Sweep_default_marks g u c ⟨hFS, hSC, hSL⟩ hin
      (hlisted u (lt_length_of_mem_inputs g u c hin)))
  refine ⟨fun i hi hisc => ?_, fun A B horder huB i hi => ?_⟩
  · exact Run_closed g c i (hlisted c (lt_length_of_StringConcat g c hc)) hc hesc hi hisc
  · exact Run_inputs_of_FlaggedWhenVisited g c i hc
      (FlaggedWhenVisited_of_later_consumer g c u A B ⟨hFS, hSC, hSL⟩ hin horder huB) hi

theorem default_consumer_inputs_witness :
    straightChainGraph.AllListed ∧
      (straightChainGraph.Get 6).opcode = Opcode.kStringConcat ∧
      6 ∈ (straightChainGraph.Get 7).inputs ∧
      (straightChainGraph.Get 6).inputs = [0, 5, 2] ∧
      RunIsEscaping straightChainGraph 5 = some true ∧
      RunIsEscaping straightChainGraph 0 = some true ∧
      RunIsEscaping straightChainGraph 2 = some true :=
  have h := default_consumer_inputs straightChainGraph (by decide) 6 7 (by decide) (by decide)
    (by decide) (by decide) (by decide)
  ⟨by decide, by decide, by decide, by decide, h.1 5 (by decide) (by decide),
    h.2 [0, 1, 2, 3, 4, 5] [7] (by decide) (by decide) 0 (by decide),
    h.2 [0, 1, 2, 3, 4, 5] [7] (by decide) (by decide) 2 (by decide)⟩

/-- C2 fails as stated: in `loopGraph` the StringConcat 4 is an input of the
ordinary operation 3, and its inputs 0, 1 and 2 are not flagged when Run has
returned. -/
theorem default_consumer_inputs_counterexample :
    loopGraph.WellFormed ∧ loopGraph.AllListed ∧
      (loopGraph.Get 4).opcode = Opcode.kStringConcat ∧
      IsDefaultKind loopGraph 3 ∧ 4 ∈ (loopGraph.Get 3).inputs ∧
      (loopGraph.Get 4).inputs = [0, 1, 2] ∧
      RunIsEscaping loopGraph 4 = some true ∧
      RunIsEscaping loopGraph 0 = some false ∧
      RunIsEscaping loopGraph 1 = some false ∧
      RunIsEscaping loopGraph 2 = some false ∧
      ¬ (∀ i ∈ (loopGraph.Get 4).inputs, RunIsEscaping loopGraph i = some true) := by
  decide

/-- C3, as the code has it. In a graph in which every operation is listed in
some block, let c3, c2 and c1 be StringConcats with c2 an input of c3, c1 an
input of c2, and a and b inputs of c1.  If c3 is flagged when Run has
returned, then so are c2 and c1, and so is each of a and b that is a
StringConcat; a and b are flagged whatever their kind when the flag of c1 was
already set at the moment the sweep visited c1. -/
theorem chain_propagation (g : Graph) (hlisted : g.AllListed) (c3 c2 c1 a b : Nat)
    (h3 : (g.Get c3).opcode = Opcode.kStringConcat)
    (h2 : (g.Get c2).opcode = Opcode.kStringConcat)
    (h1 : (g.Get c1).opcode = Opcode.kStringConcat)
    (h32 : c2 ∈ (g.Get c3).inputs) (h21 : c1 ∈ (g.Get c2).inputs)
    (ha : a ∈ (g.Get c1).inputs) (hb : b ∈ (g.Get c1).inputs)
    (hesc : RunIsEscaping g c3 = some true) :
    RunIsEscaping g c2 = some true ∧ RunIsEscaping g c1 = some true ∧
    ((g.Get a).opcode = Opcode.kStringConcat → RunIsEscaping g a = some true) ∧
    ((g.Get b).opcode = Opcode.kStringConcat → RunIsEscaping g b = some true) ∧
    (FlaggedWhenVisited g c1 →
      RunIsEscaping g a = some true ∧ RunIsEscaping g b = some true) := by
  have hl := fun o (h : (g.Get o).opcode = Opcode.kStringConcat) =>
    hlisted o (lt_length_of_StringConcat g o h)
  have e2 : RunIsEscaping g c2 = some true := Run_closed g c3 c2 (hl c3 h3) h3 hesc h32 h2
  have e1 : RunIsEscaping g c1 = some true := Run_closed g c2 c1 (hl c2 h2) h2 e2 h21 h1
  exact ⟨e2, e1, fun hsc => Run_closed g c1 a (hl c1 h1) h1 e1 ha hsc,
    fun hsc => Run_closed g c1 b (hl c1 h1) h1 e1 hb hsc,
    fun hv => ⟨Run_inputs_of_FlaggedWhenVisited g c1 a h1 hv ha,
      Run_inputs_of_FlaggedWhenVisited g c1 b h1 hv hb⟩⟩

theorem chain_propagation_witness :
    straightChainGraph.AllListed ∧ RunIsEscaping straightChainGraph 6 = some true ∧
      RunIsEscaping straightChainGraph 5 = some true ∧
      RunIsEscaping straightChainGraph 4 = some true ∧
      RunIsEscaping straightChainGraph 1 = some true ∧
      RunIsEscaping straightChainGraph 2 = some true :=
  have h := chain_propagation straightChainGraph (by decide) 6 5 4 1 2 (by decide) (by decide)
    (by decide) (by decide) (by decide) (by decide) (by decide) (by decide)
  have hv : FlaggedWhenVisited straightChainGraph 4 :=
    ⟨[7, 6, 5], [3, 2, 1, 0], by decide, by decide⟩
  ⟨by decide, by decide, h.1, h.2.1, (h.2.2.2.2 hv).1, (h.2.2.2.2 hv).2⟩

/-- C3 fails as stated: in `chainGraph` the StringConcats 6, 5 and 4 form a
chain, 6 is flagged when Run has returned, and the operands 1 and 2 of the
innermost StringConcat 4 are not. -/
theorem chain_propagation_counterexample :
    chainGraph.WellFormed ∧ chainGraph.AllListed ∧
      (chainGraph.Get 6).opcode = Opcode.kStringConcat ∧
      (chainGraph.Get 5).opcode = Opcode.kStringConcat ∧
      (chainGraph.Get 4).opcode = Opcode.kStringConcat ∧
      (chainGraph.Get 6).inputs = [0, 5, 2] ∧ (chainGraph.Get 5).inputs = [0, 4, 1] ∧
      (chainGraph.Get 4).inputs = [0, 1, 2] ∧
      IsDefaultKind chainGraph 3 ∧ 6 ∈ (chainGraph.Get 3).inputs ∧
      RunIsEscaping chainGraph 6 = some true ∧
      RunIsEscaping chainGraph 1 = some false ∧ RunIsEscaping chainGraph 2 = some false ∧
      ¬ (RunIsEscaping chainGraph 5 = some true ∧ RunIsEscaping chainGraph 4 = some true ∧
          RunIsEscaping chainGraph 1 = some true ∧ RunIsEscaping chainGraph 2 = some true) := by
  decide

/-! ## The loop back-edge scenario -/

theorem ProcessOp_origin (g : Graph) (st : StringEscapeAnalyzer) (x i : Nat)
    (h : (ProcessOp g st x).escaping_operations_ i = true) :
    st.escaping_operations_ i = true ∨ i ∈ (g.Get x).inputs := by
  unfold ProcessOp at h
  split at h
  · exact Or.inl h
  · split at h
    · rw [MarkAllInputs_apply] at h
      simpa using h
    · exact Or.inl h
  · exact Or.inl h
  · rw [MarkAllInputs_apply] at h
    simpa using h

theorem foldl_ProcessOp_origin (g : Graph) (l : List Nat) (st : StringEscapeAnalyzer) (i : Nat)
    (h : (l.foldl (ProcessOp g) st).escaping_operations_ i = true) :
    st.escaping_operations_ i = true ∨ ∃ u ∈ l, i ∈ (g.Get u).inputs := by
  induction l generalizing st with
  | nil => exact Or.inl h
  | cons x xs ih =>
    rw [List.foldl_cons] at h
    rcases ih _ h with h' | ⟨u, hu, hin⟩
    · rcases ProcessOp_origin g st x i h' with h'' | h''
      · exact Or.inl h''
      · exact Or.inr ⟨x, by simp, h''⟩
    · exact Or.inr ⟨u, by simp [hu], hin⟩

/-- C7, as the code has it. Let the StringConcat c be referenced only by the
ordinary (phi-like) operation p, which is listed before c in block order and
not after it, and let p be flagged when Run has returned.  The sweep reaches c
with the flag of c still false, so c joins the deferred list; the flag of c is
set later in the same sweep, when p is visited, so it is true when ProcessBlock
has finished for all blocks, and it is true when Run has returned. -/
theorem loop_back_edge (g : Graph) (c p : Nat) (A M B : List Nat)
    (hc : (g.Get c).opcode = Opcode.kStringConcat)
    (hFS : (g.Get p).opcode ≠ Opcode.kFrameState)
    (hSC : (g.Get p).opcode ≠ Opcode.kStringConcat)
    (hSL : (g.Get p).opcode ≠ Opcode.kStringLength)
    (hin : c ∈ (g.Get p).inputs)
    (honly : ∀ u < g.operations.length, c ∈ (g.Get u).inputs → u = p)
    (horder : g.blockOrder = A ++ p :: (M ++ c :: B)) (hpB : p ∉ B)
    (_hp : RunIsEscaping g p = some true) :
    Dispatched g = B.reverse ++ c :: (M.reverse ++ p :: A.reverse) ∧
    (B.reverse.foldl (ProcessOp g) fresh).IsEscaping c = false ∧
    c ∈ (Sweep g).maybe_non_escaping_string_concats_ ∧
    (Sweep g).IsEscaping c = true ∧
    RunIsEscaping g c = some true := by
  have hdisp : Dispatched g = B.reverse ++ c :: (M.reverse ++ p :: A.reverse) := by
    rw [Dispatched_eq, horder]
    simp
  have hfalse : (B.reverse.foldl (ProcessOp g) fresh).IsEscaping c = false := by
    cases hflag : (B.reverse.foldl (ProcessOp g) fresh).IsEscaping c with
    | false => rfl
    | true =>
      rcases foldl_ProcessOp_origin g B.reverse fresh c hflag with h | ⟨u, hu, huin⟩
      · simp [fresh] at h
      · have := honly u (lt_length_of_mem_inputs g u c huin) huin
        subst this
        exact absurd (by simpa using hu) hpB
  have hsweep : (Sweep g).IsEscaping c = true := by
    unfold Sweep IsEscaping
    rw [SweepFrom_eq, hdisp]
    exact foldl_ProcessOp_default_marks g _ fresh p c ⟨hFS, hSC, hSL⟩ hin (by simp)
  refine ⟨hdisp, hfalse, ?_, hsweep, ?_⟩
  · unfold Sweep
    rw [SweepFrom_eq, hdisp, List.foldl_append, List.foldl_cons]
    apply foldl_ProcessOp_deferred_grows
    rcases ProcessOp_StringConcat_cases g (B.reverse.foldl (ProcessOp g) fresh) c hc with
      ⟨h, _⟩ | ⟨_, h⟩
    · rw [hfalse] at h; exact absurd h (by simp)
    · exact h
  · obtain ⟨F, _, hle, hF⟩ := RunIsEscaping_spec g
    rw [hF c]
    congr 1
    exact hle c hsweep

theorem loop_back_edge_witness :
    loopGraph.blockOrder = [0, 1, 2] ++ 3 :: ([] ++ 4 :: [5]) ∧
      RunIsEscaping loopGraph 3 = some true ∧
      Dispatched loopGraph = [5].reverse ++ 4 :: ([].reverse ++ 3 :: [0, 1, 2].reverse) ∧
      ([5].reverse.foldl (ProcessOp loopGraph) fresh).IsEscaping 4 = false ∧
      4 ∈ (Sweep loopGraph).maybe_non_escaping_string_concats_ ∧
      (Sweep loopGraph).IsEscaping 4 = true ∧
      RunIsEscaping loopGraph 4 = some true :=
  ⟨by decide, by decide,
    loop_back_edge loopGraph 4 3 [0, 1, 2] [] [5] (by decide) (by decide) (by decide)
      (by decide) (by decide) (by decide) (by decide) (by decide) (by decide)⟩

/-- C7 fails as stated: in `loopGraph` the StringConcat 4 is referenced only by
the ordinary operation 3, listed before it, and 3 is flagged; the flag of 4 is
already true when the sweep has finished, before the fix-up pass. -/
theorem loop_back_edge_counterexample :
    loopGraph.WellFormed ∧ loopGraph.AllListed ∧
      (loopGraph.Get 4).opcode = Opcode.kStringConcat ∧
      IsDefaultKind loopGraph 3 ∧ 4 ∈ (loopGraph.Get 3).inputs ∧
      (∀ u < loopGraph.operations.length, 4 ∈ (loopGraph.Get u).inputs → u = 3) ∧
      loopGraph.blockOrder = [0, 1, 2] ++ 3 :: ([] ++ 4 :: [5]) ∧
      RunIsEscaping loopGraph 3 = some true ∧
      (Sweep loopGraph).IsEscaping 4 = true ∧
      ¬ ((Sweep loopGraph).IsEscaping 4 = false ∧ RunIsEscaping loopGraph 4 = some true) := by
  decide

/-! ## FrameState transparency -/

theorem MarkInput_congr (g g' : Graph)
    (hop : ∀ i, (g'.Get i).opcode = (g.Get i).opcode) :
    MarkInput g' = MarkInput g := by
  funext acc x
  unfold MarkInput
  rw [hop]

theorem MarkLoop_congr (g g' : Graph)
    (hop : ∀ i, (g'.Get i).opcode = (g.Get i).opcode)
    (hinp : ∀ i, (g.Get i).opcode = Opcode.kStringConcat →
      (g'.Get i).inputs = (g.Get i).inputs) :
    ∀ (fuel : Nat) (wl : List Nat) (F : Flags),
      (∀ c ∈ wl, (g.Get c).opcode = Opcode.kStringConcat) →
      MarkLoop g' fuel wl F = MarkLoop g fuel wl F := by
  intro fuel
  induction fuel with
  | zero =>
    intro wl F _
    cases wl <;> simp [MarkLoop]
  | succ fuel ih =>
    intro wl F hwl
    cases wl with
    | nil => simp [MarkLoop]
    | cons c cs =>
      have hstep : MarkStep g' F c cs = MarkStep g F c cs := by
        unfold MarkStep
        rw [MarkInput_congr g g' hop, hinp c (hwl c (List.mem_cons_self _ _))]
      simp only [MarkLoop, hstep]
      apply ih
      intro x hx
      unfold MarkStep at hx
      rw [MarkInput_fold_worklist] at hx
      rcases hx with hx | ⟨_, hsc, _⟩
      · exact hwl x (List.mem_cons_of_mem _ hx)
      · exact hsc

theorem ReprocessFrom_congr (g g' : Graph)
    (hop : ∀ i, (g'.Get i).opcode = (g.Get i).opcode)
    (hinp : ∀ i, (g.Get i).opcode = Opcode.kStringConcat →
      (g'.Get i).inputs = (g.Get i).inputs)
    (hlen : g'.operations.length = g.operations.length) :
    ∀ (cands : List Nat) (F : Flags),
      (∀ c ∈ cands, (g.Get c).opcode = Opcode.kStringConcat) →
      ReprocessFrom g' cands F = ReprocessFrom g cands F := by
  intro cands
  induction cands with
  | nil => intro F _; rfl
  | cons c cs ih =>
    intro F hc
    have hcand : ReprocessCandidate g' F c = ReprocessCandidate g F c := by
      unfold ReprocessCandidate RecursivelyMarkAllStringConcatInputsAsEscaping
      rw [hlen, MarkLoop_congr g g' hop hinp _ [c] F
        (fun x hx => by
          simp only [List.mem_singleton] at hx
          subst hx
          exact hc x (List.mem_cons_self _ _))]
    simp only [ReprocessFrom, hcand]
    cases ReprocessCandidate g F c with
    | none => rfl
    | some F₁ => exact ih F₁ (fun x hx => hc x (List.mem_cons_of_mem _ hx))

/-- Two graphs with the same kinds, the same inputs on StringConcats and the
same sweep have the same run. -/
theorem Run_congr (g g' : Graph)
    (hop : ∀ i, (g'.Get i).opcode = (g.Get i).opcode)
    (hinp : ∀ i, (g.Get i).opcode = Opcode.kStringConcat →
      (g'.Get i).inputs = (g.Get i).inputs)
    (hlen : g'.operations.length = g.operations.length)
    (hsweep : Sweep g' = Sweep g) : Run g' = Run g := by
  unfold Run ReprocessStringConcats
  rw [hsweep, ReprocessFrom_congr g g' hop hinp hlen _ _ (Sweep_Justified g).2]

theorem foldl_filter_ne (g : Graph) (f : Nat) (hf : ∀ st, ProcessOp g st f = st)
    (l : List Nat) (st : StringEscapeAnalyzer) :
    (l.filter (fun i => i ≠ f)).foldl (ProcessOp g) st = l.foldl (ProcessOp g) st := by
  induction l generalizing st with
  | nil => rfl
  | cons x xs ih =>
    by_cases hx : x = f
    · subst hx
      simp only [List.foldl_cons, hf]
      rw [← ih]
      simp
    · simp only [List.foldl_cons]
      rw [← ih]
      simp [hx]

theorem ProcessOp_FrameState (g : Graph) (f : Nat)
    (hf : (g.Get f).opcode = Opcode.kFrameState) (st : StringEscapeAnalyzer) :
    ProcessOp g st f = st := by
  unfold ProcessOp
  rw [hf]

theorem Sweep_removeFromBlocks (g : Graph) (f : Nat)
    (hf : (g.Get f).opcode = Opcode.kFrameState) :
    Sweep (g.removeFromBlocks f) = Sweep g := by
  have hproc : ProcessOp (g.removeFromBlocks f) = ProcessOp g := rfl
  unfold Sweep
  rw [SweepFrom_eq, SweepFrom_eq, Dispatched_eq, Dispatched_eq, hproc]
  have hbo : (g.removeFromBlocks f).blockOrder = g.blockOrder.filter (fun i => i ≠ f) := by
    unfold Graph.blockOrder Graph.removeFromBlocks
    rw [List.filter_flatten]
  rw [hbo, ← List.filter_reverse]
  exact foldl_filter_ne g f (ProcessOp_FrameState g f hf) _ _

theorem Get_clearInputs (g : Graph) (f i : Nat) :
    (g.clearInputs f).Get i = if i = f then ⟨(g.Get f).opcode, []⟩ else g.Get i := by
  by_cases hlt : f < g.operations.length
  · unfold Graph.clearInputs Graph.Get
    simp only [List.getD, List.getElem?_set]
    by_cases hif : i = f
    · subst hif
      simp [hlt]
    · have : ¬ f = i := fun h => hif h.symm
      simp [hif, this]
  · have hset : g.clearInputs f = g := by
      unfold Graph.clearInputs
      rw [List.set_eq_of_length_le (Nat.le_of_not_lt hlt)]
    rw [hset]
    by_cases hif : i = f
    · subst hif
      rw [if_pos rfl, Get_of_length_le g i (Nat.le_of_not_lt hlt)]
    · rw [if_neg hif]

theorem opcode_clearInputs (g : Graph) (f i : Nat) :
    ((g.clearInputs f).Get i).opcode = (g.Get i).opcode := by
  rw [Get_clearInputs]
  by_cases hif : i = f
  · subst hif; simp
  · simp [hif]

theorem Sweep_clearInputs (g : Graph) (f : Nat)
    (hf : (g.Get f).opcode = Opcode.kFrameState) :
    Sweep (g.clearInputs f) = Sweep g := by
  have hproc : ProcessOp (g.clearInputs f) = ProcessOp g := by
    funext st i
    by_cases hif : i = f
    · subst hif
      rw [ProcessOp_FrameState g i hf,
        ProcessOp_FrameState _ i (by rw [opcode_clearInputs]; exact hf)]
    · have hget : (g.clearInputs f).Get i = g.Get i := by
        rw [Get_clearInputs]; simp [hif]
      unfold ProcessOp
      rw [hget]
  unfold Sweep
  rw [SweepFrom_eq, SweepFrom_eq, hproc, Dispatched_eq, Dispatched_eq]
  rfl

/-- C6. FrameState transparency: for a FrameState operation f, Run returns the
same flag for every operation index on the graph, on the graph with f removed
from the operation lists of the blocks, and on the graph with the input list of
f replaced by the empty list. -/
theorem frame_state_transparent (g : Graph) (f : Nat)
    (hf : (g.Get f).opcode = Opcode.kFrameState) (i : Nat) :
    ∃ flag, RunIsEscaping g i = some flag ∧
      RunIsEscaping (g.removeFromBlocks f) i = some flag ∧
      RunIsEscaping (g.clearInputs f) i = some flag := by
  obtain ⟨F, _, _, hrun⟩ := RunIsEscaping_spec g
  have hA : Run (g.removeFromBlocks f) = Run g :=
    Run_congr g _ (fun _ => rfl) (fun _ _ => rfl) rfl (Sweep_removeFromBlocks g f hf)
  have hB : Run (g.clearInputs f) = Run g :=
    Run_congr g _ (opcode_clearInputs g f)
      (fun i hsc => by
        rw [Get_clearInputs]
        by_cases hif : i = f
        · subst hif; rw [hf] at hsc; exact Opcode.noConfusion hsc
        · simp [hif])
      (by simp [Graph.clearInputs]) (Sweep_clearInputs g f hf)
  refine ⟨F i, hrun i, ?_, ?_⟩
  · unfold RunIsEscaping; rw [hA]; exact hrun i
  · unfold RunIsEscaping; rw [hB]; exact hrun i

theorem frame_state_transparent_witness :
    (frameGraph.Get 4).opcode = Opcode.kFrameState ∧
      (frameGraph.removeFromBlocks 4).blocks = [[0, 1, 2, 3], [5, 6]] ∧
      (frameGraph.clearInputs 4).Get 4 = ⟨Opcode.kFrameState, []⟩ ∧
      ∃ flag, RunIsEscaping frameGraph 3 = some flag ∧
        RunIsEscaping (frameGraph.removeFromBlocks 4) 3 = some flag ∧
        RunIsEscaping (frameGraph.clearInputs 4) 3 = some flag :=
  ⟨by decide, by decide, by decide, frame_state_transparent frameGraph 4 (by decide) 3⟩

/-! ## Determinism -/

/-- C11. Idempotence: Run on a graph returns, and any two runs on the same
graph, each from a fresh analyzer, end with flag stores that agree on every
operation index. -/
theorem run_deterministic (g : Graph) (i : Nat) :
    ∃ flag, RunIsEscaping g i = some flag ∧
      ∀ first second, Run g = some first → Run g = some second →
        first.IsEscaping i = flag ∧ second.IsEscaping i = flag := by
  obtain ⟨F, _, hrun⟩ := Run_eq_some g
  refine ⟨F i, by simp [RunIsEscaping, hrun, IsEscaping], fun first second h₁ h₂ => ?_⟩
  rw [hrun] at h₁ h₂
  simp only [Option.some.injEq] at h₁ h₂
  subst h₁
  subst h₂
  exact ⟨rfl, rfl⟩

/-! ## The fix-up pass touches only StringConcat flags -/

theorem ReprocessFrom_frame (g : Graph) (cands : List Nat) (F : Flags) :
    ∃ F', ReprocessFrom g cands F = some F' ∧
      ∀ i, (g.Get i).opcode ≠ Opcode.kStringConcat → F' i = F i := by
  obtain ⟨F', hF', hinv⟩ :=
    ReprocessFrom_induct g
      (fun _ _ F₁ => ∀ i, (g.Get i).opcode ≠ Opcode.kStringConcat → F₁ i = F i)
      (fun _ _ _ h _ => h) (fun _ _ _ h _ => h)
      (fun _ curr wl F₁ h i hi => by
        unfold MarkStep
        rw [MarkInput_fold_flags, ← h i hi]
        simp [hi])
      cands F (fun _ _ => rfl)
  exact ⟨F', hF', hinv⟩

/-- C18. The fix-up pass touches only StringConcat flags: from every flag
store and every candidate list the loop of ReprocessStringConcats returns a
flag store that agrees with the starting one on every index whose operation is
not a StringConcat, and ReprocessStringConcats leaves the deferred list alone;
so for such an index the answer after Run is the flag at the end of the
sweep. -/
theorem fixup_only_string_concats (g : Graph) :
    (∀ cands F, ∃ F', ReprocessFrom g cands F = some F' ∧
      ∀ i, (g.Get i).opcode ≠ Opcode.kStringConcat → F' i = F i) ∧
    (∀ st, ∃ st', ReprocessStringConcats g st = some st' ∧
      st'.maybe_non_escaping_string_concats_ = st.maybe_non_escaping_string_concats_ ∧
      ∀ i, (g.Get i).opcode ≠ Opcode.kStringConcat → st'.IsEscaping i = st.IsEscaping i) ∧
    (∀ i, (g.Get i).opcode ≠ Opcode.kStringConcat →
      RunIsEscaping g i = some ((Sweep g).IsEscaping i)) := by
  refine ⟨ReprocessFrom_frame g, fun st => ?_, fun i hi => ?_⟩
  · obtain ⟨F', hF', hfr⟩ := ReprocessFrom_frame g st.maybe_non_escaping_string_concats_
      st.escaping_operations_
    exact ⟨{ st with escaping_operations_ := F' }, by simp [ReprocessStringConcats, hF'], rfl,
      fun i hi => hfr i hi⟩
  · obtain ⟨F, hF, _, hrun⟩ := RunIsEscaping_spec g
    obtain ⟨F', hF', hfr⟩ := ReprocessFrom_frame g (Sweep g).maybe_non_escaping_string_concats_
      (Sweep g).escaping_operations_
    rw [hF] at hF'
    simp only [Option.some.injEq] at hF'
    subst hF'
    rw [hrun i, hfr i hi]
    rfl

/-! ## Termination of the worklist loop -/

theorem pending_mark (g : Graph) (F : Flags) (x : Nat) :
    pending g (F.mark x) = (pending g F).erase x := by
  ext i
  unfold pending
  simp only [Finset.mem_filter, Finset.mem_range, Finset.mem_erase, mark_apply,
    Bool.or_eq_false_iff, decide_eq_false_iff_not]
  constructor
  · rintro ⟨h1, h2, h3, h4⟩
    exact ⟨h3, h1, h2, h4⟩
  · rintro ⟨h3, h1, h2, h4⟩
    exact ⟨h1, h2, h3, h4⟩

/-- One visit of an input either changes nothing, or pushes the input and
lowers the number of unflagged StringConcats by one. -/
theorem MarkInput_cases (g : Graph) (acc : Flags × List Nat) (x : Nat) :
    MarkInput g acc x = acc ∨
      ((MarkInput g acc x).2 = x :: acc.2 ∧
        (pending g (MarkInput g acc x).1).card + 1 = (pending g acc.1).card) := by
  unfold MarkInput
  by_cases hx : (g.Get x).opcode = Opcode.kStringConcat ∧ acc.1 x = false
  · right
    rw [if_pos hx]
    have hmem : x ∈ pending g acc.1 := by
      unfold pending
      simp only [Finset.mem_filter, Finset.mem_range]
      exact ⟨lt_length_of_StringConcat g x hx.1, hx.1, hx.2⟩
    refine ⟨rfl, ?_⟩
    simp only
    rw [pending_mark, Finset.card_erase_of_mem hmem]
    have hpos : 0 < (pending g acc.1).card := Finset.card_pos.mpr ⟨x, hmem⟩
    omega
  · left
    rw [if_neg hx]

theorem MarkStep_measure_eq (g : Graph) (F : Flags) (curr : Nat) (rest : List Nat) :
    (MarkStep g F curr rest).2.length + (pending g (MarkStep g F curr rest).1).card =
      rest.length + (pending g F).card := by
  unfold MarkStep
  refine foldl_inv
    (fun acc => acc.2.length + (pending g acc.1).card = rest.length + (pending g F).card)
    (MarkInput g) _ (F, rest) rfl (fun b a _ hb => ?_)
  rcases MarkInput_cases g b a with h | ⟨h1, h2⟩
  · rw [h]; exact hb
  · rw [h1, List.length_cons]
    omega

theorem MarkLoop_fuel_mono (g : Graph) :
    ∀ (fuel : Nat) (wl : List Nat) (F F' : Flags), MarkLoop g fuel wl F = some F' →
      ∀ fuel', fuel ≤ fuel' → MarkLoop g fuel' wl F = some F' := by
  intro fuel
  induction fuel with
  | zero =>
    intro wl F F' h fuel' _
    cases wl with
    | nil =>
      cases fuel' <;> simpa [MarkLoop] using h
    | cons c cs => simp [MarkLoop] at h
  | succ fuel ih =>
    intro wl F F' h fuel' hle
    cases wl with
    | nil =>
      cases fuel' <;> simpa [MarkLoop] using h
    | cons c cs =>
      cases fuel' with
      | zero => omega
      | succ fuel' =>
        simp only [MarkLoop] at h ⊢
        exact ih _ _ _ h fuel' (by omega)

/-- C13. Termination of the fix-up: from every flag store and every candidate
the worklist loop of RecursivelyMarkAllStringConcatInputsAsEscaping returns,
and allowing it more iterations changes nothing; from every worklist it returns
within as many iterations as the worklist is long plus the number of unflagged
StringConcats.  Every push inside the loop lowers the number of unflagged
StringConcats by one, so over one iteration the length of the worklist plus
that number is unchanged once the popped entry is counted. -/
theorem worklist_terminates (g : Graph) :
    (∀ F concat, ∃ F', RecursivelyMarkAllStringConcatInputsAsEscaping g F concat = some F' ∧
      ∀ fuel, g.operations.length + 1 ≤ fuel → MarkLoop g fuel [concat] F = some F') ∧
    (∀ fuel wl F, wl.length + (pending g F).card ≤ fuel →
      ∃ F', MarkLoop g fuel wl F = some F' ∧
        ∀ fuel', fuel ≤ fuel' → MarkLoop g fuel' wl F = some F') ∧
    (∀ acc x, MarkInput g acc x = acc ∨
      ((MarkInput g acc x).2 = x :: acc.2 ∧
        (pending g (MarkInput g acc x).1).card + 1 = (pending g acc.1).card)) ∧
    (∀ F curr rest,
      (MarkStep g F curr rest).2.length + (pending g (MarkStep g F curr rest).1).card =
        rest.length + (pending g F).card) := by
  have hloop : ∀ fuel wl F, wl.length + (pending g F).card ≤ fuel →
      ∃ F', MarkLoop g fuel wl F = some F' ∧
        ∀ fuel', fuel ≤ fuel' → MarkLoop g fuel' wl F = some F' := by
    intro fuel wl F hfuel
    obtain ⟨F', hF', _⟩ :=
      MarkLoop_induct g (fun _ _ => True) (fun _ _ _ _ => trivial) fuel wl F hfuel trivial
    exact ⟨F', hF', MarkLoop_fuel_mono g fuel wl F F' hF'⟩
  refine ⟨fun F concat => ?_, hloop, MarkInput_cases g, MarkStep_measure_eq g⟩
  exact hloop (g.operations.length + 1) [concat] F
    (by have := pending_card_le g F; simp only [List.length_singleton]; omega)

theorem worklist_terminates_witness :
    2 ∈ (cyclicGraph.Get 1).inputs ∧ 1 ∈ (cyclicGraph.Get 2).inputs ∧
      1 ∈ (cyclicGraph.Get 1).inputs ∧
      (RecursivelyMarkAllStringConcatInputsAsEscaping cyclicGraph (fun _ => false) 1).map
        (fun F => [F 0, F 1, F 2]) = some [false, true, true] ∧
      ∃ F', RecursivelyMarkAllStringConcatInputsAsEscaping cyclicGraph (fun _ => false) 1 =
          some F' ∧
        ∀ fuel, cyclicGraph.operations.length + 1 ≤ fuel →
          MarkLoop cyclicGraph fuel [1] (fun _ => false) = some F' :=
  ⟨by decide, by decide, by decide, by decide,
    (worklist_terminates cyclicGraph).1 (fun _ => false) 1⟩

/-! ## Exact characterisation on StringConcats -/

theorem EscapeChain_of_Justified (g : Graph) (c : Nat) (hJ : Justified g c) :
    (g.Get c).opcode = Opcode.kStringConcat → ∃ u cs, EscapeChain g u cs c := by
  induction hJ with
  | direct u i hu hin =>
    intro hsc
    refine ⟨u, [i], hu, ⟨i, rfl, hin⟩, rfl, fun x hx => ?_, List.chain'_singleton i⟩
    simp only [List.mem_singleton] at hx
    rw [hx]; exact hsc
  | via c' i hsc' _ hin ih =>
    intro hsc
    obtain ⟨u, cs, hu, ⟨c₁, hhead, hc₁⟩, hlast, hall, hchain⟩ := ih hsc'
    refine ⟨u, cs ++ [i], hu, ⟨c₁, ?_, hc₁⟩, List.getLast?_concat cs, fun x hx => ?_, ?_⟩
    · rw [List.head?_append, hhead]; rfl
    · simp only [List.mem_append, List.mem_singleton] at hx
      rcases hx with hx | hx
      · exact hall x hx
      · rw [hx]; exact hsc
    · refine List.Chain'.append hchain (List.chain'_singleton i) (fun x hx y hy => ?_)
      rw [hlast] at hx
      simp only [List.head?_cons, Option.mem_def, Option.some.injEq] at hx hy
      subst hx
      subst hy
      exact hin

theorem Justified_of_chain (g : Graph) :
    ∀ (cs : List Nat) (x c : Nat), Justified g x →
      (∀ y ∈ x :: cs, (g.Get y).opcode = Opcode.kStringConcat) →
      List.Chain' (fun a b => b ∈ (g.Get a).inputs) (x :: cs) →
      (x :: cs).getLast? = some c → Justified g c := by
  intro cs
  induction cs with
  | nil =>
    intro x c hx _ _ hlast
    simp only [List.getLast?_singleton, Option.some.injEq] at hlast
    subst hlast
    exact hx
  | cons y ys ih =>
    intro x c hx hall hchain hlast
    rw [List.chain'_cons] at hchain
    rw [List.getLast?_cons_cons] at hlast
    exact ih y c (Justified.via x y (hall x (List.mem_cons_self _ _)) hx hchain.1)
      (fun z hz => hall z (List.mem_cons_of_mem _ hz)) hchain.2 hlast

theorem Justified_of_EscapeChain (g : Graph) (u : Nat) (cs : List Nat) (c : Nat)
    (h : EscapeChain g u cs c) : Justified g c := by
  obtain ⟨hu, ⟨c₁, hhead, hc₁⟩, hlast, hall, hchain⟩ := h
  cases cs with
  | nil => simp at hhead
  | cons x xs =>
    simp only [List.head?_cons, Option.some.injEq] at hhead
    subst hhead
    exact Justified_of_chain g xs x c (Justified.direct u x hu hc₁) hall hchain hlast

/-- In a graph in which every operation is listed, a StringConcat that has a
reason is flagged when Run has returned. -/
theorem Run_of_Justified (g : Graph) (hlisted : g.AllListed) (c : Nat) (hJ : Justified g c) :
    (g.Get c).opcode = Opcode.kStringConcat → RunIsEscaping g c = some true := by
  induction hJ with
  | direct u i hu hin =>
    intro _
    obtain ⟨F, _, hle, hF⟩ := RunIsEscaping_spec g
    rw [hF i]
    congr 1
    exact hle i (Sweep_default_marks g u i hu hin
      (hlisted u (lt_length_of_mem_inputs g u i hin)))
  | via c' i hsc' _ hin ih =>
    intro hsc
    exact Run_closed g c' i (hlisted c' (lt_length_of_StringConcat g c' hsc')) hsc'
      (ih hsc') hin hsc

/-- C12. Exact characterisation on StringConcats: in a graph in which every
operation is listed in some block, a StringConcat c is flagged when Run has
returned if and only if there are an operation u whose kind is none of
FrameState, StringConcat and StringLength and a sequence of StringConcats that
starts with an input of u, continues from each element to one of its inputs and
ends in c; that is, if and only if c is in the least set closed under the
classifier rules.  Otherwise Run returns with c unflagged. -/
theorem escaping_iff_chain (g : Graph) (hlisted : g.AllListed) (c : Nat)
    (hc : (g.Get c).opcode = Opcode.kStringConcat) :
    (RunIsEscaping g c = some true ↔ ∃ u cs, EscapeChain g u cs c) ∧
    (RunIsEscaping g c = some true ↔ Justified g c) ∧
    (RunIsEscaping g c = some false ↔ ¬ ∃ u cs, EscapeChain g u cs c) := by
  have h1 : RunIsEscaping g c = some true ↔ Justified g c :=
    ⟨Run_Justified g c, fun hJ => Run_of_Justified g hlisted c hJ hc⟩
  have h2 : Justified g c ↔ ∃ u cs, EscapeChain g u cs c :=
    ⟨fun hJ => EscapeChain_of_Justified g c hJ hc,
      fun ⟨u, cs, h⟩ => Justified_of_EscapeChain g u cs c h⟩
  refine ⟨h1.trans h2, h1, ?_⟩
  rw [← h2, ← h1]
  obtain ⟨F, _, _, hrun⟩ := RunIsEscaping_spec g
  rw [hrun c]
  cases F c <;> simp

theorem escaping_iff_chain_witness :
    chainGraph.AllListed ∧ (chainGraph.Get 4).opcode = Opcode.kStringConcat ∧
      EscapeChain chainGraph 3 [6, 5, 4] 4 ∧ RunIsEscaping chainGraph 4 = some true :=
  have hchain : EscapeChain chainGraph 3 [6, 5, 4] 4 :=
    ⟨by decide, ⟨6, rfl, by decide⟩, rfl, by decide,
      List.Chain'.cons (by decide) (List.Chain'.cons (by decide) (List.chain'_singleton 4))⟩
  ⟨by decide, by decide, hchain,
    (escaping_iff_chain chainGraph (by decide) 4 (by decide)).1.mpr ⟨3, [6, 5, 4], hchain⟩⟩

/-! ## The deferred list -/

theorem ProcessOp_deferred (g : Graph) (st : StringEscapeAnalyzer) (index : Nat) :
    (ProcessOp g st index).maybe_non_escaping_string_concats_ =
      st.maybe_non_escaping_string_concats_ ++
        (if (g.Get index).opcode = Opcode.kStringConcat ∧ st.IsEscaping index = false
          then [index] else []) := by
  by_cases hsc : (g.Get index).opcode = Opcode.kStringConcat
  · rw [ProcessOp_StringConcat g st index hsc]
    by_cases hesc : st.IsEscaping index = true
    · rw [if_pos hesc, MarkAllInputs_deferred]
      simp [hesc]
    · rw [if_neg hesc]
      simp only [Bool.not_eq_true] at hesc
      simp [hsc, hesc]
  · have hnot : ¬ ((g.Get index).opcode = Opcode.kStringConcat ∧ st.IsEscaping index = false) :=
      fun h => hsc h.1
    rw [if_neg hnot, List.append_nil]
    unfold ProcessOp
    split
    · rfl
    · next h => exact absurd h hsc
    · rfl
    · rw [MarkAllInputs_deferred]

theorem foldl_ProcessOp_deferred (g : Graph) (l : List Nat) (st : StringEscapeAnalyzer) :
    (l.foldl (ProcessOp g) st).maybe_non_escaping_string_concats_ =
      st.maybe_non_escaping_string_concats_ ++ UnflaggedWhenVisited g l st := by
  induction l generalizing st with
  | nil => simp [UnflaggedWhenVisited]
  | cons x xs ih =>
    rw [List.foldl_cons, ih, ProcessOp_deferred, UnflaggedWhenVisited, List.append_assoc]

theorem UnflaggedWhenVisited_sublist (g : Graph) (l : List Nat) (st : StringEscapeAnalyzer) :
    List.Sublist (UnflaggedWhenVisited g l st) l := by
  induction l generalizing st with
  | nil => simp [UnflaggedWhenVisited]
  | cons x xs ih =>
    rw [UnflaggedWhenVisited]
    split
    · exact List.Sublist.cons₂ x (ih _)
    · exact List.Sublist.cons x (ih _)

/-- An entry of the list of operations unflagged when visited is a
StringConcat, and there is a visit of it at which its flag is false. -/
theorem mem_UnflaggedWhenVisited (g : Graph) (l : List Nat) (st : StringEscapeAnalyzer)
    (c : Nat) (h : c ∈ UnflaggedWhenVisited g l st) :
    (g.Get c).opcode = Opcode.kStringConcat ∧
      ∃ xs ys, l = xs ++ c :: ys ∧ (xs.foldl (ProcessOp g) st).IsEscaping c = false := by
  induction l generalizing st with
  | nil => simp [UnflaggedWhenVisited] at h
  | cons x xs ih =>
    rw [UnflaggedWhenVisited, List.mem_append] at h
    rcases h with h | h
    · split at h
      · next hx =>
        simp only [List.mem_singleton] at h
        subst h
        exact ⟨hx.1, [], xs, rfl, hx.2⟩
      · simp at h
    · obtain ⟨hsc, ys, zs, hsplit, hflag⟩ := ih _ h
      exact ⟨hsc, x :: ys, zs, by rw [hsplit]; rfl, hflag⟩

theorem Sweep_deferred (g : Graph) :
    (Sweep g).maybe_non_escaping_string_concats_ =
      UnflaggedWhenVisited g (Dispatched g) fresh := by
  unfold Sweep
  rw [SweepFrom_eq, foldl_ProcessOp_deferred]
  rfl

/-! ## The pushes onto the worklist -/

theorem MarkInputLogged_fst (g : Graph) (acc : (Flags × List Nat) × PushLog) (x : Nat) :
    (MarkInputLogged g acc x).1 = MarkInput g acc.1 x := by
  unfold MarkInputLogged MarkInput
  split <;> rfl

theorem MarkStepLogged_fst (g : Graph) (F : Flags) (curr : Nat) (rest : List Nat)
    (log : PushLog) : (MarkStepLogged g F curr rest log).1 = MarkStep g F curr rest := by
  unfold MarkStepLogged MarkStep
  generalize (g.Get curr).inputs = l
  generalize hacc : ((F, rest), log) = acc
  have : (F, rest) = acc.1 := by rw [← hacc]
  rw [this]
  clear hacc this
  induction l generalizing acc with
  | nil => rfl
  | cons x xs ih =>
    simp only [List.foldl_cons]
    rw [ih, MarkInputLogged_fst]

theorem MarkLoopLogged_fst (g : Graph) :
    ∀ (fuel : Nat) (wl : List Nat) (F : Flags) (log : PushLog),
      (MarkLoopLogged g fuel wl F log).map Prod.fst = MarkLoop g fuel wl F := by
  intro fuel
  induction fuel with
  | zero =>
    intro wl F log
    cases wl <;> simp [MarkLoopLogged, MarkLoop]
  | succ fuel ih =>
    intro wl F log
    cases wl with
    | nil => simp [MarkLoopLogged, MarkLoop]
    | cons c cs =>
      simp only [MarkLoopLogged, MarkLoop]
      rw [ih, MarkStepLogged_fst]

theorem ReprocessFromLogged_fst (g : Graph) :
    ∀ (cands : List Nat) (F : Flags) (log : PushLog),
      (ReprocessFromLogged g cands F log).map Prod.fst = ReprocessFrom g cands F := by
  intro cands
  induction cands with
  | nil => intro F log; rfl
  | cons c cs ih =>
    intro F log
    have hcand : (ReprocessCandidateLogged g F log c).map Prod.fst =
        ReprocessCandidate g F c := by
      unfold ReprocessCandidateLogged ReprocessCandidate RecursivelyMarkLogged
        RecursivelyMarkAllStringConcatInputsAsEscaping
      split
      · exact MarkLoopLogged_fst g _ _ _ _
      · rfl
    simp only [ReprocessFromLogged, ReprocessFrom]
    rw [← hcand]
    cases ReprocessCandidateLogged g F log c with
    | none => rfl
    | some r => simpa using ih r.1 r.2

/-- Invariant rule for the fix-up pass with its pushes recorded.  The invariant
speaks of the candidates still to handle, the flag store and the pushes so
far. -/
theorem ReprocessFromLogged_induct (g : Graph) (Inv : List Nat → Flags → PushLog → Prop)
    (hskip : ∀ index rest F log, Inv (index :: rest) F log → F index = false →
      Inv rest F log)
    (hseed : ∀ index rest F log, Inv (index :: rest) F log → F index = true →
      Inv rest F (log ++ [(PushSite.seed, index)]))
    (hinput : ∀ cands (acc : (Flags × List Nat) × PushLog) x, Inv cands acc.1.1 acc.2 →
      Inv cands (MarkInputLogged g acc x).1.1 (MarkInputLogged g acc x).2) :
    ∀ (cands : List Nat) (F : Flags) (log : PushLog), Inv cands F log →
      ∃ F' log', ReprocessFromLogged g cands F log = some (F', log') ∧ Inv [] F' log' := by
  have hloop : ∀ (cands : List Nat) (fuel : Nat) (wl : List Nat) (F : Flags) (log : PushLog),
      wl.length + (pending g F).card ≤ fuel → Inv cands F log →
      ∃ F' log', MarkLoopLogged g fuel wl F log = some (F', log') ∧ Inv cands F' log' := by
    intro cands fuel
    induction fuel with
    | zero =>
      intro wl F log hfuel hinv
      cases wl with
      | nil => exact ⟨F, log, by simp [MarkLoopLogged], hinv⟩
      | cons c cs => simp at hfuel
    | succ fuel ih =>
      intro wl F log hfuel hinv
      cases wl with
      | nil => exact ⟨F, log, by simp [MarkLoopLogged], hinv⟩
      | cons c cs =>
        simp only [MarkLoopLogged]
        apply ih
        · rw [MarkStepLogged_fst]
          have := MarkStep_measure g F c cs
          simp only [List.length_cons] at hfuel
          omega
        · unfold MarkStepLogged
          exact foldl_inv (fun acc => Inv cands acc.1.1 acc.2) (MarkInputLogged g) _
            ((F, cs), log) hinv (fun b a _ hb => hinput cands b a hb)
  intro cands
  induction cands with
  | nil => intro F log h; exact ⟨F, log, rfl, h⟩
  | cons index rest ih =>
    intro F log h
    simp only [ReprocessFromLogged, ReprocessCandidateLogged]
    by_cases hF : F index = true
    · rw [if_pos hF]
      obtain ⟨F₁, log₁, h₁, hinv₁⟩ :=
        hloop rest (g.operations.length + 1) [index] F (log ++ [(PushSite.seed, index)])
          (by have := pending_card_le g F; simp only [List.length_singleton]; omega)
          (hseed index rest F log h hF)
      unfold RecursivelyMarkLogged
      rw [h₁]
      exact ih F₁ log₁ hinv₁
    · rw [if_neg hF]
      simp only [Bool.not_eq_true] at hF
      exact ih F log (hskip index rest F log h hF)

/-- The pushes of the fix-up pass are recorded alongside the run: the flag
store computed with the record is the one Run computes. -/
theorem FixupPushes_spec (g : Graph) :
    ∃ F log, ReprocessFromLogged g (Sweep g).maybe_non_escaping_string_concats_
        (Sweep g).escaping_operations_ [] = some (F, log) ∧
      FixupPushes g = some log ∧
      Run g = some { Sweep g with escaping_operations_ := F } := by
  obtain ⟨F, log, h, _⟩ :=
    ReprocessFromLogged_induct g (fun _ _ _ => True) (fun _ _ _ _ _ _ => trivial)
      (fun _ _ _ _ _ _ => trivial) (fun _ _ _ _ => trivial)
      (Sweep g).maybe_non_escaping_string_concats_ (Sweep g).escaping_operations_ [] trivial
  refine ⟨F, log, h, by simp [FixupPushes, h], ?_⟩
  have := ReprocessFromLogged_fst g (Sweep g).maybe_non_escaping_string_concats_
    (Sweep g).escaping_operations_ []
  rw [h] at this
  simp only [Option.map_some'] at this
  simp [Run, ReprocessStringConcats, ← this]

/-- C17. Deferred-list invariant and cast safety: after the sweep the
deferred list is, in visit order, exactly the list of StringConcat operations
whose flag was false at the moment they were visited; it holds only
StringConcats; when no index is listed twice in the blocks it holds no index
twice; and every entry put on the worklist during the fix-up, a flagged
candidate or an input pushed inside the loop, is a StringConcat, so the casts
to StringConcatOp succeed. -/
theorem deferred_list_invariant (g : Graph) (hnodup : g.blockOrder.Nodup) :
    (Sweep g).maybe_non_escaping_string_concats_ =
      UnflaggedWhenVisited g (Dispatched g) fresh ∧
    List.Sublist (Sweep g).maybe_non_escaping_string_concats_ (Dispatched g) ∧
    (∀ c ∈ (Sweep g).maybe_non_escaping_string_concats_,
      (g.Get c).opcode = Opcode.kStringConcat) ∧
    (Sweep g).maybe_non_escaping_string_concats_.Nodup ∧
    ∃ log, FixupPushes g = some log ∧
      ∀ e ∈ log, (g.Get e.2).opcode = Opcode.kStringConcat := by
  have hsub : List.Sublist (Sweep g).maybe_non_escaping_string_concats_ (Dispatched g) := by
    rw [Sweep_deferred]
    exact UnflaggedWhenVisited_sublist g _ _
  have hdisp : (Dispatched g).Nodup := by
    rw [Dispatched_eq]
    exact List.nodup_reverse.mpr hnodup
  refine ⟨Sweep_deferred g, hsub, (Sweep_Justified g).2, hsub.nodup hdisp, ?_⟩
  obtain ⟨F, log, hlog, hinv⟩ :=
    ReprocessFromLogged_induct g
      (fun cands _ log => (∀ c ∈ cands, (g.Get c).opcode = Opcode.kStringConcat) ∧
        ∀ e ∈ log, (g.Get e.2).opcode = Opcode.kStringConcat)
      (fun index rest F log h _ => ⟨fun c hc => h.1 c (List.mem_cons_of_mem _ hc), h.2⟩)
      (fun index rest F log h _ => ⟨fun c hc => h.1 c (List.mem_cons_of_mem _ hc),
        fun e he => by
          simp only [List.mem_append, List.mem_singleton] at he
          rcases he with he | he
          · exact h.2 e he
          · rw [he]; exact h.1 index (List.mem_cons_self _ _)⟩)
      (fun cands acc x h => by
        refine ⟨h.1, ?_⟩
        unfold MarkInputLogged
        split
        · next hx =>
          intro e he
          simp only [List.mem_append, List.mem_singleton] at he
          rcases he with he | he
          · exact h.2 e he
          · rw [he]; exact hx.1
        · exact h.2)
      (Sweep g).maybe_non_escaping_string_concats_ (Sweep g).escaping_operations_ []
      ⟨(Sweep_Justified g).2, fun e he => by simp at he⟩
  exact ⟨log, by simp [FixupPushes, hlog], hinv.2⟩

theorem deferred_list_invariant_witness :
    chainGraph.blockOrder.Nodup ∧
      (Sweep chainGraph).maybe_non_escaping_string_concats_ = [6, 5, 4] ∧
      (Sweep chainGraph).maybe_non_escaping_string_concats_ =
        UnflaggedWhenVisited chainGraph (Dispatched chainGraph) fresh ∧
      List.Sublist (Sweep chainGraph).maybe_non_escaping_string_concats_
        (Dispatched chainGraph) ∧
      (∀ c ∈ (Sweep chainGraph).maybe_non_escaping_string_concats_,
        (chainGraph.Get c).opcode = Opcode.kStringConcat) ∧
      (Sweep chainGraph).maybe_non_escaping_string_concats_.Nodup ∧
      ∃ log, FixupPushes chainGraph = some log ∧
        ∀ e ∈ log, (chainGraph.Get e.2).opcode = Opcode.kStringConcat :=
  ⟨by decide, by decide, deferred_list_invariant chainGraph (by decide)⟩

/-! ## How often an index is pushed -/

/-- C14, as the code has it. Over the whole fix-up pass every operation index
is pushed inside the worklist loop at most once, and it is pushed as the seed
of a flagged candidate at most as often as it occurs in the deferred list;
when no index is listed twice in the blocks that is at most once, so an index
is placed on the worklist at most twice, once as a seed and once inside the
loop. -/
theorem pushes_bounded (g : Graph) :
    ∃ log, FixupPushes g = some log ∧
      (∀ i, log.count (PushSite.loop, i) ≤ 1) ∧
      (∀ i, log.count (PushSite.seed, i) ≤
        (Sweep g).maybe_non_escaping_string_concats_.count i) ∧
      (g.blockOrder.Nodup → ∀ i, log.count (PushSite.seed, i) ≤ 1 ∧
        log.count (PushSite.seed, i) + log.count (PushSite.loop, i) ≤ 2) := by
  obtain ⟨F, log, hlog, hflag, hloop, hseed⟩ :=
    ReprocessFromLogged_induct g
      (fun cands F log => (∀ x, (PushSite.loop, x) ∈ log → F x = true) ∧
        (∀ x, log.count (PushSite.loop, x) ≤ 1) ∧
        ∀ x, log.count (PushSite.seed, x) + cands.count x ≤
          (Sweep g).maybe_non_escaping_string_concats_.count x)
      (fun index rest F log h _ => ⟨h.1, h.2.1, fun x => by
        have := h.2.2 x
        rw [List.count_cons] at this
        omega⟩)
      (fun index rest F log h _ => ⟨fun x hx => by
          simp only [List.mem_append, List.mem_singleton, Prod.mk.injEq] at hx
          rcases hx with hx | ⟨hx, _⟩
          · exact h.1 x hx
          · exact absurd hx (by decide),
        fun x => by
          rw [List.count_append, List.count_singleton]
          have := h.2.1 x
          simp only [beq_iff_eq, Prod.mk.injEq]
          rw [if_neg (fun hx => absurd hx.1 (by decide))]
          omega,
        fun x => by
          have := h.2.2 x
          rw [List.count_cons] at this
          rw [List.count_append, List.count_singleton]
          simp only [beq_iff_eq, Prod.mk.injEq, true_and] at this ⊢
          by_cases hx : index = x
          · simp only [hx, if_true] at this ⊢
            omega
          · simp only [hx, if_false] at this ⊢
            omega⟩)
      (fun cands acc x h => by
        unfold MarkInputLogged
        split
        · next hx =>
          refine ⟨fun y hy => ?_, fun y => ?_, fun y => ?_⟩
          · simp only [List.mem_append, List.mem_singleton, Prod.mk.injEq, true_and] at hy
            simp only [mark_apply]
            rcases hy with hy | hy
            · simp [h.1 y hy]
            · simp [hy]
          · simp only
            rw [List.count_append, List.count_singleton]
            simp only [beq_iff_eq, Prod.mk.injEq, true_and]
            by_cases hxy : x = y
            · subst hxy
              have hnot : (PushSite.loop, x) ∉ acc.2 := fun hmem => by
                have := h.1 x hmem
                rw [hx.2] at this
                exact absurd this (by simp)
              rw [List.count_eq_zero_of_not_mem hnot]
              simp
            · simp only [hxy, if_false]
              exact h.2.1 y
          · simp only
            rw [List.count_append, List.count_singleton]
            simp only [beq_iff_eq, Prod.mk.injEq]
            rw [if_neg (fun hx => absurd hx.1 (by decide))]
            exact h.2.2 y
        · exact h)
      (Sweep g).maybe_non_escaping_string_concats_ (Sweep g).escaping_operations_ []
      ⟨fun x hx => by simp at hx, fun x => by simp, fun x => by simp⟩
  have hseed' : ∀ i, log.count (PushSite.seed, i) ≤
      (Sweep g).maybe_non_escaping_string_concats_.count i := fun i => by
    have := hseed i
    simp only [List.count_nil] at this
    omega
  refine ⟨log, by simp [FixupPushes, hlog], hloop, hseed', fun hnodup i => ?_⟩
  have hsub : List.Sublist (Sweep g).maybe_non_escaping_string_concats_ (Dispatched g) := by
    rw [Sweep_deferred]
    exact UnflaggedWhenVisited_sublist g _ _
  have hdisp : (Dispatched g).Nodup := by
    rw [Dispatched_eq]
    exact List.nodup_reverse.mpr hnodup
  have hone := List.nodup_iff_count_le_one.mp (hsub.nodup hdisp) i
  have := hseed' i
  have := hloop i
  omega

/-- C14 fails as stated: in `chainGraph` the fix-up pushes 5 and 4 inside the
loop started for the candidate 6 and then again as the seeds of their own
turns as candidates, so each of them is placed on the worklist twice. -/
theorem pushes_bounded_counterexample :
    chainGraph.WellFormed ∧ chainGraph.AllListed ∧ chainGraph.blockOrder.Nodup ∧
      FixupPushes chainGraph =
        some [(PushSite.seed, 6), (PushSite.loop, 5), (PushSite.loop, 4),
          (PushSite.seed, 5), (PushSite.seed, 4)] ∧
      (FixupPushes chainGraph).map
        (fun log => log.count (PushSite.seed, 5) + log.count (PushSite.loop, 5)) = some 2 ∧
      ¬ (∀ i log, FixupPushes chainGraph = some log →
          log.count (PushSite.seed, i) + log.count (PushSite.loop, i) ≤ 1) := by
  have hlog : FixupPushes chainGraph =
      some [(PushSite.seed, 6), (PushSite.loop, 5), (PushSite.loop, 4),
        (PushSite.seed, 5), (PushSite.seed, 4)] := by decide
  refine ⟨by decide, by decide, by decide, hlog, by decide, fun h => ?_⟩
  exact absurd (h 5 _ hlog) (by decide)

theorem pushes_bounded_witness :
    chainGraph.blockOrder.Nodup ∧
      ∃ log, FixupPushes chainGraph = some log ∧
        ∀ i, log.count (PushSite.seed, i) ≤ 1 ∧
          log.count (PushSite.seed, i) + log.count (PushSite.loop, i) ≤ 2 :=
  ⟨by decide, (pushes_bounded chainGraph).imp (fun _ h => ⟨h.1, h.2.2.2 (by decide)⟩)⟩

/-! ## Graphs without forward references -/

theorem NoForwardRefs_split (g : Graph) (h : NoForwardRefs g) (A B : List Nat) (u i : Nat)
    (hsplit : g.blockOrder = A ++ u :: B) (hi : i ∈ (g.Get u).inputs) :
    i ∈ A ∧ i ∉ u :: B := by
  have hk : A.length < g.blockOrder.length := by
    rw [hsplit]; simp
  have hget : g.blockOrder.getD A.length 0 = u := by
    rw [hsplit, List.getD, List.get?_eq_getElem?, List.getElem?_append_right (Nat.le_refl _)]
    simp
  have := h A.length hk i (by rw [hget]; exact hi)
  rw [hsplit] at this
  simpa using this

/-- Without forward references, a flag that is set at the end of the sweep was
already set when the sweep visited the operation. -/
theorem flag_at_visit_of_NoForwardRefs (g : Graph) (h : NoForwardRefs g) (c : Nat)
    (xs ys : List Nat) (hsplit : Dispatched g = xs ++ c :: ys)
    (hfinal : (Sweep g).IsEscaping c = true) :
    (xs.foldl (ProcessOp g) fresh).IsEscaping c = true := by
  have hbo : g.blockOrder = ys.reverse ++ c :: xs.reverse := by
    have := congrArg List.reverse hsplit
    rw [Dispatched_eq, List.reverse_reverse] at this
    rw [this]; simp
  unfold Sweep IsEscaping at hfinal
  rw [SweepFrom_eq, hsplit, List.foldl_append] at hfinal
  rcases foldl_ProcessOp_origin g (c :: ys) _ c hfinal with h' | ⟨u, hu, hin⟩
  · exact h'
  · exfalso
    simp only [List.mem_cons] at hu
    rcases hu with hu | hu
    · subst hu
      exact (NoForwardRefs_split g h _ _ u u hbo hin).2 (List.mem_cons_self _ _)
    · obtain ⟨ys₁, ys₂, rfl⟩ := List.append_of_mem hu
      have hbo' : g.blockOrder = ys₂.reverse ++ u :: (ys₁.reverse ++ c :: xs.reverse) := by
        rw [hbo]; simp
      exact (NoForwardRefs_split g h _ _ u c hbo' hin).2 (by simp)

theorem deferred_unflagged_of_NoForwardRefs (g : Graph) (h : NoForwardRefs g) (c : Nat)
    (hc : c ∈ (Sweep g).maybe_non_escaping_string_concats_) :
    (Sweep g).IsEscaping c = false := by
  rw [Sweep_deferred] at hc
  obtain ⟨_, xs, ys, hsplit, hflag⟩ := mem_UnflaggedWhenVisited g _ _ c hc
  cases hfinal : (Sweep g).IsEscaping c with
  | false => rfl
  | true =>
    rw [flag_at_visit_of_NoForwardRefs g h c xs ys hsplit hfinal] at hflag
    exact absurd hflag (by simp)

theorem ReprocessFrom_of_unflagged (g : Graph) (cands : List Nat) (F : Flags)
    (h : ∀ c ∈ cands, F c = false) : ReprocessFrom g cands F = some F := by
  induction cands with
  | nil => rfl
  | cons c cs ih =>
    simp only [ReprocessFrom, ReprocessCandidate]
    rw [h c (List.mem_cons_self _ _)]
    simp only [Bool.false_eq_true, if_false, Option.some_bind]
    exact ih (fun x hx => h x (List.mem_cons_of_mem _ hx))

theorem Run_of_NoForwardRefs (g : Graph) (h : NoForwardRefs g) : Run g = some (Sweep g) := by
  unfold Run ReprocessStringConcats
  rw [ReprocessFrom_of_unflagged g _ (Sweep g).escaping_operations_
    (fun c hc => deferred_unflagged_of_NoForwardRefs g h c hc)]
  rfl

/-- C15. On a graph without forward references the sweep alone is the result:
every StringConcat flagged at the end of the sweep was already flagged at each
of its visits, no deferred candidate is flagged, and Run returns the state of
the sweep, so the flag store after Run is the flag store after the sweep. -/
theorem sweep_alone_without_forward_refs (g : Graph) (h : NoForwardRefs g) :
    (∀ c xs ys, (g.Get c).opcode = Opcode.kStringConcat → Dispatched g = xs ++ c :: ys →
      (Sweep g).IsEscaping c = true → (xs.foldl (ProcessOp g) fresh).IsEscaping c = true) ∧
    (∀ c ∈ (Sweep g).maybe_non_escaping_string_concats_, (Sweep g).IsEscaping c = false) ∧
    Run g = some (Sweep g) ∧
    (∀ i, RunIsEscaping g i = some ((Sweep g).IsEscaping i)) := by
  refine ⟨fun c xs ys _ hsplit hfinal => flag_at_visit_of_NoForwardRefs g h c xs ys hsplit hfinal,
    deferred_unflagged_of_NoForwardRefs g h, Run_of_NoForwardRefs g h, fun i => ?_⟩
  unfold RunIsEscaping
  rw [Run_of_NoForwardRefs g h]
  rfl

theorem sweep_alone_without_forward_refs_witness :
    NoForwardRefs straightChainGraph ∧
      (Sweep straightChainGraph).maybe_non_escaping_string_concats_ = [] ∧
      Run straightChainGraph = some (Sweep straightChainGraph) ∧
      RunIsEscaping straightChainGraph 4 = some true :=
  have h := sweep_alone_without_forward_refs straightChainGraph (by decide)
  ⟨by decide, by decide, h.2.2.1, by decide⟩

/-- C16. All-inputs rule on a graph without forward references: when Run has
returned, every input of every flagged StringConcat is flagged, whatever the
kind of the input. -/
theorem all_inputs_without_forward_refs (g : Graph) (h : NoForwardRefs g) (o i : Nat)
    (hsc : (g.Get o).opcode = Opcode.kStringConcat)
    (ho : RunIsEscaping g o = some true) (hi : i ∈ (g.Get o).inputs) :
    RunIsEscaping g i = some true := by
  have hsweep : (Sweep g).IsEscaping o = true := by
    unfold RunIsEscaping at ho
    rw [Run_of_NoForwardRefs g h] at ho
    simpa using ho
  have horigin : ∃ u ∈ Dispatched g, o ∈ (g.Get u).inputs := by
    have hs := hsweep
    unfold Sweep IsEscaping at hs
    rw [SweepFrom_eq] at hs
    rcases foldl_ProcessOp_origin g _ fresh o hs with h' | h'
    · simp [fresh] at h'
    · exact h'
  obtain ⟨u, hu, hin⟩ := horigin
  rw [Dispatched_eq, List.mem_reverse] at hu
  obtain ⟨A, B, hsplit⟩ := List.append_of_mem hu
  have hoA := (NoForwardRefs_split g h A B u o hsplit hin).1
  have hodisp : o ∈ Dispatched g := by
    rw [Dispatched_eq, List.mem_reverse, hsplit]
    simp [hoA]
  obtain ⟨xs, ys, hxs⟩ := List.append_of_mem hodisp
  exact Run_inputs_of_FlaggedWhenVisited g o i hsc
    ⟨xs, ys, hxs, flag_at_visit_of_NoForwardRefs g h o xs ys hxs hsweep⟩ hi

theorem all_inputs_without_forward_refs_witness :
    NoForwardRefs straightChainGraph ∧
      (straightChainGraph.Get 4).opcode = Opcode.kStringConcat ∧
      RunIsEscaping straightChainGraph 4 = some true ∧
      (straightChainGraph.Get 4).inputs = [0, 1, 2] ∧
      RunIsEscaping straightChainGraph 0 = some true :=
  ⟨by decide, by decide, by decide, by decide,
    all_inputs_without_forward_refs straightChainGraph (by decide) 4 0 (by decide) (by decide)
      (by decide)⟩

end Turboshaft
